import Mathlib

/-!
# Visual cryptography: (2,2) share generation and overlay

A shallow embedding of `src/main.cpp` (class `VisualCryptography`) and of the
few OpenCV operations it calls, followed by the properties that the
specification states about share generation and reconstruction.

Conventions of the embedding.

* A `cv::Mat` is restricted to 8-bit elements.  Its buffer is a row-major
  list of naturals; a row holds `cols * channels` elements.
* Exceptions are values of `Except String`, the string being `what()`.
  A `try { ... } catch (const std::exception& e) { throw runtime_error(p + e.what()) }`
  wrapper is `rethrow p`.
* `std::mt19937 rng` is observed only through `dist(rng)` with
  `uniform_int_distribution<int> dist(0, 1)`: the generator is the stream of
  the values that successive calls return, plus the number of calls made.
-/

set_option autoImplicit false

/-! ## OpenCV operations used by the program -/

namespace cv

/-- An 8-bit `cv::Mat`: `rows`, `cols`, the number of interleaved channels and
the continuous row-major buffer. -/
structure Mat where
  rows : Nat
  cols : Nat
  channels : Nat
  data : List Nat
deriving DecidableEq

/-- The call `m.size()`: the pair (width, height). -/
def Mat.size (m : Mat) : Nat × Nat := (m.cols, m.rows)

/-- The call `m.empty()`: true when the matrix has no element. -/
def Mat.empty (m : Mat) : Bool := m.rows * m.cols == 0

/-- The call `m.clone()`: a deep copy, equal to the original as a value. -/
def Mat.clone (m : Mat) : Mat := m

/-- The call `cv::Mat::zeros(rows, cols, CV_8UC1)`. -/
def Mat.zeros (rows cols : Nat) : Mat :=
  { rows := rows, cols := cols, channels := 1, data := List.replicate (rows * cols) 0 }

/-- Number of buffer elements in one row. -/
def Mat.step (m : Mat) : Nat := m.cols * m.channels

/-- The read `m.at<uchar>(i, j)`: element `j` of row `i` of the buffer.
A read outside the buffer (undefined in C++) yields 0. -/
def Mat.at (m : Mat) (i j : Nat) : Nat := m.data.getD (i * m.step + j) 0

/-- The write `m.at<uchar>(i, j) = v`.  A write outside the buffer (undefined
in C++) leaves the matrix as it is. -/
def Mat.put (m : Mat) (i j v : Nat) : Mat :=
  { m with data := m.data.set (i * m.step + j) v }

/-- The call `cv::threshold(src, dst, thresh, maxval, cv::THRESH_BINARY)` on
8-bit data: an element becomes `maxval` when it is greater than `thresh` and 0
otherwise. -/
def threshold (src : Mat) (thresh maxval : Nat) : Mat :=
  { src with data := src.data.map (fun v => if v > thresh then maxval else 0) }

/-- The call `cv::bitwise_and(src1, src2, dst)`, returning the new `dst`: for
operands of the same size and type the element-wise conjunction of the bits,
in a matrix of the size and type of `src1` (the previous content of `dst` is
overwritten).  Operands of different size or type are not an
"array op array" input; OpenCV raises an error for them (its scalar
broadcasting of one-row operands is not modelled). -/
def bitwise_and (src1 src2 _dst : Mat) : Except String Mat :=
  if src1.size = src2.size ∧ src1.channels = src2.channels then
    .ok { src1 with data := List.zipWith (fun a b => a &&& b) src1.data src2.data }
  else
    .error "The operation is neither 'array op array' (where arrays have the same size and type), nor 'array op scalar', nor 'scalar op array'"

end cv

/-! ## The program -/

/-- The handler `catch (const std::exception& e) { throw std::runtime_error(p + e.what()); }`
around a block. -/
def rethrow {α : Type} (p : String) (body : Except String α) : Except String α :=
  match body with
  | .ok a => .ok a
  | .error e => .error (p ++ e)

/-- The generator `std::mt19937 rng` as seen through `dist(rng)`: `bits k` is
the value returned by call number `k` (from 0) and `pos` counts the calls made
so far. -/
structure Rng where
  bits : Nat → Fin 2
  pos : Nat

/-- One call `dist(rng)`: the drawn value and the advanced generator. -/
def Rng.dist (rng : Rng) : Nat × Rng :=
  ((rng.bits rng.pos).val, { rng with pos := rng.pos + 1 })

/-- The private members of `class VisualCryptography`. -/
structure VisualCryptography where
  original : cv.Mat
  width : Nat
  height : Nat
  rng : Rng

/-- Constant `MAX_WIDTH`. -/
def VisualCryptography.MAX_WIDTH : Nat := 400

/-- Constant `MAX_HEIGHT`. -/
def VisualCryptography.MAX_HEIGHT : Nat := 400

/-- Lines 53 to 55 of the constructor: the object that holds the binarized
image `original`, its dimensions and the seeded generator. -/
def VisualCryptography.holding (original : cv.Mat) (rng : Rng) : VisualCryptography :=
  { original := original, width := original.cols, height := original.rows, rng := rng }

/-- The constructor `VisualCryptography(const cv::Mat& input_image)`.
The OpenCV calls `cv::resize(input_image, resized, cv::Size(), scale, scale)`
(with the scale computed from the dimensions of the input) and
`cv::cvtColor(resized, gray, cv::COLOR_BGR2GRAY)` are parameters, and `seeded`
is the generator after `rng.seed(std::random_device()())`. -/
def VisualCryptography.new (resize cvtColor : cv.Mat → Except String cv.Mat)
    (input_image : cv.Mat) (seeded : Rng) : Except String VisualCryptography :=
  rethrow "Error in constructor: " (do
    if input_image.empty then
      throw "Input image is empty"
    let resized ←
      if input_image.cols > VisualCryptography.MAX_WIDTH
          ∨ input_image.rows > VisualCryptography.MAX_HEIGHT then
        resize input_image
      else
        pure input_image.clone
    let original ←
      if resized.channels = 3 then do
        let gray ← cvtColor resized
        pure (cv.threshold gray 128 255)
      else
        pure (cv.threshold resized 128 255)
    pure (VisualCryptography.holding original seeded))

/-- The table `patterns[2][2][2]`. -/
def patterns : List (List (List Nat)) :=
  [[[255, 0], [0, 255]],
   [[0, 255], [255, 0]]]

/-- The table lookup `patterns[p][x][y]`. -/
def patternAt (p x y : Nat) : Nat := ((patterns.getD p []).getD x []).getD y 0

/-- The body of the two inner loops (lines 83 to 93) for one `x` and one `y`,
acting on the pair (share1, share2). -/
def writeCell (pixel pattern_idx i j : Nat) (s : cv.Mat × cv.Mat) (x y : Nat) :
    cv.Mat × cv.Mat :=
  let row := i * 2 + x
  let col := j * 2 + y
  if pixel = 255 then
    (s.1.put row col (patternAt pattern_idx x y),
     s.2.put row col (patternAt pattern_idx x y))
  else
    (s.1.put row col (patternAt pattern_idx x y),
     s.2.put row col (if patternAt pattern_idx x y = 255 then 0 else 255))

/-- The loops `for x in 0..1` and `for y in 0..1` (lines 81 to 95). -/
def writeBlock (pixel pattern_idx i j : Nat) (s : cv.Mat × cv.Mat) : cv.Mat × cv.Mat :=
  (List.range 2).foldl
    (fun s x => (List.range 2).foldl (fun s y => writeCell pixel pattern_idx i j s x y) s) s

/-- The variables that the loops of `generateShares` update. -/
structure GenState where
  share1 : cv.Mat
  share2 : cv.Mat
  rng : Rng

/-- The body of the loop over `j` (lines 78 to 95): read the pixel, draw the
pattern index, write the block of both shares. -/
def pixelBody (original : cv.Mat) (i : Nat) (st : GenState) (j : Nat) : GenState :=
  let pixel := original.at i j
  let drawn := Rng.dist st.rng
  let s := writeBlock pixel drawn.1 i j (st.share1, st.share2)
  { share1 := s.1, share2 := s.2, rng := drawn.2 }

/-- The loops over `i` and `j` (lines 76 to 97). -/
def shareLoops (original : cv.Mat) (height width : Nat) (st : GenState) : GenState :=
  (List.range height).foldl
    (fun st i => (List.range width).foldl (fun st j => pixelBody original i st j) st) st

/-- The method `generateShares()`: the returned pair of shares, and the object
after the call (its generator has advanced). -/
def VisualCryptography.generateShares (vc : VisualCryptography) :
    Except String ((cv.Mat × cv.Mat) × VisualCryptography) :=
  rethrow "Error generating shares: " (do
    let share1 := cv.Mat.zeros (vc.height * 2) (vc.width * 2)
    let share2 := cv.Mat.zeros (vc.height * 2) (vc.width * 2)
    let st := shareLoops vc.original vc.height vc.width
      { share1 := share1, share2 := share2, rng := vc.rng }
    pure ((st.share1, st.share2), { vc with rng := st.rng }))

/-- The method `overlayShares(share1, share2)`.  It reads no member of the
object. -/
def VisualCryptography.overlayShares (share1 share2 : cv.Mat) : Except String cv.Mat :=
  rethrow "Error in overlay: " (do
    if share1.size ≠ share2.size then
      throw "Shares have different sizes"
    let result := cv.Mat.zeros share1.size.2 share1.size.1
    cv.bitwise_and share1 share2 result)

/-! ## Observations used to state the properties -/

/-- Pixel value `WHITE`. -/
abbrev WHITE : Nat := 255

/-- Pixel value `BLACK`. -/
abbrev BLACK : Nat := 0

/-- The 2x2 block of `m` that belongs to source pixel (i, j): rows `2i`, `2i+1`
and columns `2j`, `2j+1`, listed row by row. -/
def block (m : cv.Mat) (i j : Nat) : List (List Nat) :=
  [[m.at (2 * i) (2 * j), m.at (2 * i) (2 * j + 1)],
   [m.at (2 * i + 1) (2 * j), m.at (2 * i + 1) (2 * j + 1)]]

/-- Canonical pattern number `p` as a 2x2 block. -/
def pattern (p : Nat) : List (List Nat) :=
  [[patternAt p 0 0, patternAt p 0 1], [patternAt p 1 0, patternAt p 1 1]]

/-- Number of cells of a block that hold the value `v`. -/
def countCells (v : Nat) (b : List (List Nat)) : Nat := (b.flatten.filter (fun c => c = v)).length

/-- The rows of a matrix, as lists of elements. -/
def matRows (m : cv.Mat) : List (List Nat) :=
  (List.range m.rows).map (fun r => (List.range m.step).map (fun c => m.at r c))

/-- A generator that returns the listed values first and 0 afterwards. -/
def Rng.ofList (l : List (Fin 2)) : Rng := { bits := fun k => l.getD k 0, pos := 0 }

/-- A single-channel matrix given by its rows (all of length `cols`). -/
def rasterOfRows (cols : Nat) (rs : List (List Nat)) : cv.Mat :=
  { rows := rs.length, cols := cols, channels := 1, data := rs.flatten }

/-- The shares and the reconstruction for a raster and a generator. -/
def shareRun (img : cv.Mat) (rng : Rng) : Except String (cv.Mat × cv.Mat × cv.Mat) := do
  let r ← (VisualCryptography.holding img rng).generateShares
  let o ← VisualCryptography.overlayShares r.1.1 r.1.2
  pure (r.1.1, r.1.2, o)

/-- Shape of a share for a source of height `H` and width `W`. -/
def ShareShape (H W : Nat) (m : cv.Mat) : Prop :=
  m.rows = H * 2 ∧ m.cols = W * 2 ∧ m.channels = 1 ∧ m.data.length = H * 2 * (W * 2)

/-- Value that `generateShares` gives to cell (r, c) of share2, for the source
pixel value `pixel` and pattern index `p` of the block of the cell. -/
def cell2 (pixel p r c : Nat) : Nat :=
  if pixel = 255 then patternAt p (r % 2) (c % 2)
  else if patternAt p (r % 2) (c % 2) = 255 then 0 else 255

/-- Pattern index that call number `i * W + j` after `rng0` returns: the one
drawn for pixel (i, j) of a source of width `W`. -/
def bitFor (rng0 : Rng) (W i j : Nat) : Nat := (rng0.bits (rng0.pos + (i * W + j))).val

/-- State of the loops of `generateShares` when the rows before `i` and the
pixels before column `j` of row `i` are done. -/
structure LoopInv (original : cv.Mat) (rng0 : Rng) (H W i j : Nat) (st : GenState) : Prop where
  shape1 : ShareShape H W st.share1
  shape2 : ShareShape H W st.share2
  rng : st.rng = { bits := rng0.bits, pos := rng0.pos + (i * W + j) }
  cells : ∀ r c, c < W * 2 → (r / 2 < i ∨ (r / 2 = i ∧ c / 2 < j)) →
    st.share1.at r c = patternAt (bitFor rng0 W (r / 2) (c / 2)) (r % 2) (c % 2) ∧
    st.share2.at r c
      = cell2 (original.at (r / 2) (c / 2)) (bitFor rng0 W (r / 2) (c / 2)) r c

/-- Cell-wise conjunction of two blocks. -/
def andBlock (X Y : List (List Nat)) : List (List Nat) :=
  List.zipWith (List.zipWith (fun a b => a &&& b)) X Y

/-- The generator `rng` with the value of call number `k` replaced by `b`. -/
def Rng.withBit (rng : Rng) (k : Nat) (b : Fin 2) : Rng :=
  { rng with bits := fun n => if n = k then b else rng.bits n }

/-- The block of share1 for source pixel (i, j) that `generateShares` produces
for raster `img` and generator `rng`. -/
def shareBlockA (img : cv.Mat) (rng : Rng) (i j : Nat) : Option (List (List Nat)) :=
  match (VisualCryptography.holding img rng).generateShares with
  | .ok r => some (block r.1.1 i j)
  | .error _ => none

/-- The block of share2 for source pixel (i, j) that `generateShares` produces
for raster `img` and generator `rng`. -/
def shareBlockB (img : cv.Mat) (rng : Rng) (i j : Nat) : Option (List (List Nat)) :=
  match (VisualCryptography.holding img rng).generateShares with
  | .ok r => some (block r.1.2 i j)
  | .error _ => none

/-- Cell-wise complement of a two-level block: WHITE becomes BLACK and every
other value becomes WHITE, as in line 92. -/
def complementBlock (b : List (List Nat)) : List (List Nat) :=
  b.map (fun row => row.map (fun v => if v = 255 then 0 else 255))

/-- The storage that a call `vc.overlayShares(share1, share2)` can read and
write: the members of the object, the matrices behind the two reference
parameters, and the local variable `result` (of arbitrary content before its
declaration at line 112). -/
structure OverlayFrame where
  self : VisualCryptography
  share1 : cv.Mat
  share2 : cv.Mat
  result : cv.Mat

/-- Statements of a method body: each reads and updates the frame and may
throw; what was written before a throw stays written. -/
abbrev FrameM := ExceptT String (StateM OverlayFrame)

/-- The statement `cv::bitwise_and(share1, share2, result);` (line 113): the two
input arrays are read and the output array `result` is written. -/
def bitwiseAndStmt : FrameM Unit := do
  let f ← get
  match cv.bitwise_and f.share1 f.share2 f.result with
  | .ok dst => set { f with result := dst }
  | .error e => throw e

/-- The body of `overlayShares` (lines 107 to 118), statement by statement, on
the frame of the call. -/
def VisualCryptography.overlaySharesStmts : FrameM cv.Mat :=
  tryCatch
    (do
      if (← get).share1.size ≠ (← get).share2.size then
        throw "Shares have different sizes"
      modify (fun f => { f with result := cv.Mat.zeros f.share1.size.2 f.share1.size.1 })
      bitwiseAndStmt
      return (← get).result)
    (fun e => throw ("Error in overlay: " ++ e))

/-- One call of `overlayShares` started on frame `f`: the value returned or the
exception thrown, and the frame when the call ends. -/
def VisualCryptography.overlaySharesRun (f : OverlayFrame) :
    Except String cv.Mat × OverlayFrame :=
  (VisualCryptography.overlaySharesStmts.run).run f

/-- Decoding of one block of a reconstruction, in the words of the claim:
BLACK if all four cells at rows 2i, 2i+1 and columns 2j, 2j+1 are 0, WHITE
otherwise. -/
def decodeCell (R : cv.Mat) (i j : Nat) : Nat :=
  if R.at (2 * i) (2 * j) = 0 ∧ R.at (2 * i) (2 * j + 1) = 0
      ∧ R.at (2 * i + 1) (2 * j) = 0 ∧ R.at (2 * i + 1) (2 * j + 1) = 0 then BLACK
  else WHITE

/-- Decoding of a reconstruction, in the words of the claim: the single-channel
raster of half the height and width whose pixel (i, j) is `decodeCell R i j`,
stored row by row. -/
def decode (R : cv.Mat) : cv.Mat :=
  { rows := R.rows / 2, cols := R.cols / 2, channels := 1,
    data := (List.range (R.rows / 2 * (R.cols / 2))).map
      (fun k => decodeCell R (k / (R.cols / 2)) (k % (R.cols / 2))) }

/-- The raster `img` with every element different from 255 replaced by 0. -/
def blackenNonWhite (img : cv.Mat) : cv.Mat :=
  { img with data := img.data.map (fun v => if v = 255 then 255 else 0) }

/-- A well-formed two-level raster: one channel, a buffer of `rows * cols`
elements, each of them BLACK or WHITE. -/
def TwoLevelRaster (img : cv.Mat) : Prop :=
  img.channels = 1 ∧ img.data.length = img.rows * img.cols
    ∧ ∀ v ∈ img.data, v = BLACK ∨ v = WHITE

/-! ## Buffer lemmas -/

theorem index_lt_of_lt {r c R C : Nat} (hr : r < R) (hc : c < C) : r * C + c < R * C := by
  have h : (r + 1) * C ≤ R * C := Nat.mul_le_mul_right C hr
  have h2 : (r + 1) * C = r * C + C := by ring
  omega

theorem index_inj {r c r' c' S : Nat} (hc : c < S) (hc' : c' < S)
    (h : r * S + c = r' * S + c') : r = r' ∧ c = c' := by
  have hr : r = r' := by
    rcases Nat.lt_trichotomy r r' with hlt | heq | hgt
    · have h1 : (r + 1) * S ≤ r' * S := Nat.mul_le_mul_right S hlt
      have h2 : (r + 1) * S = r * S + S := by ring
      omega
    · exact heq
    · have h1 : (r' + 1) * S ≤ r * S := Nat.mul_le_mul_right S hgt
      have h2 : (r' + 1) * S = r' * S + S := by ring
      omega
  subst hr
  exact ⟨rfl, by omega⟩

namespace cv

@[simp]
theorem Mat.put_rows (m : Mat) (r c v : Nat) : (m.put r c v).rows = m.rows := rfl
@[simp]
theorem Mat.put_cols (m : Mat) (r c v : Nat) : (m.put r c v).cols = m.cols := rfl
@[simp]
theorem Mat.put_channels (m : Mat) (r c v : Nat) :
    (m.put r c v).channels = m.channels := rfl
@[simp]
theorem Mat.put_step (m : Mat) (r c v : Nat) : (m.put r c v).step = m.step := rfl
@[simp]
theorem Mat.put_length (m : Mat) (r c v : Nat) :
    (m.put r c v).data.length = m.data.length := by
  simp [Mat.put]

/-- Reading after a write inside the buffer: the written cell holds the new
value, every other cell of the row range is unchanged. -/
theorem Mat.at_put (m : Mat) (r c v r' c' : Nat) (hc : c < m.step) (hc' : c' < m.step)
    (hin : r * m.step + c < m.data.length) :
    (m.put r c v).at r' c' = if r = r' ∧ c = c' then v else m.at r' c' := by
  unfold Mat.at
  rw [Mat.put_step]
  simp only [Mat.put, List.getD_eq_getElem?_getD, List.getElem?_set]
  by_cases h : r * m.step + c = r' * m.step + c'
  · have h2 := index_inj hc hc' h
    simp [h, h2, ← h, hin]
  · have h3 : ¬ (r = r' ∧ c = c') := by
      rintro ⟨rfl, rfl⟩
      exact h rfl
    simp [h, h3]

end cv

theorem ShareShape.step {H W : Nat} {m : cv.Mat} (h : ShareShape H W m) : m.step = W * 2 := by
  obtain ⟨_, h2, h3, _⟩ := h
  simp [cv.Mat.step, h2, h3]

theorem ShareShape.put {H W : Nat} {m : cv.Mat} (h : ShareShape H W m) (r c v : Nat) :
    ShareShape H W (m.put r c v) := by
  obtain ⟨h1, h2, h3, h4⟩ := h
  exact ⟨by simpa using h1, by simpa using h2, by simpa using h3, by simpa using h4⟩

theorem shareShape_zeros (H W : Nat) : ShareShape H W (cv.Mat.zeros (H * 2) (W * 2)) := by
  simp [ShareShape, cv.Mat.zeros]

/-- Reading a share after one cell write of the block of pixel (i, j). -/
theorem at_put_share {H W : Nat} {m : cv.Mat} (h : ShareShape H W m) {i j x y : Nat}
    (hi : i < H) (hj : j < W) (hx : x < 2) (hy : y < 2) (v r c : Nat) (hc : c < W * 2) :
    (m.put (i * 2 + x) (j * 2 + y) v).at r c
      = if i * 2 + x = r ∧ j * 2 + y = c then v else m.at r c := by
  have hs := h.step
  apply cv.Mat.at_put
  · omega
  · omega
  · rw [hs, h.2.2.2]
    exact index_lt_of_lt (by omega) (by omega)

/-! ## The effect of the loops of `generateShares` -/

theorem writeBlock_unfold (pixel p i j : Nat) (s : cv.Mat × cv.Mat) :
    writeBlock pixel p i j s
      = writeCell pixel p i j (writeCell pixel p i j
          (writeCell pixel p i j (writeCell pixel p i j s 0 0) 0 1) 1 0) 1 1 := by
  have h2 : List.range 2 = [0, 1] := by decide
  simp [writeBlock, h2]

theorem writeCell_fst (pixel p i j : Nat) (s : cv.Mat × cv.Mat) (x y : Nat) :
    (writeCell pixel p i j s x y).1 = s.1.put (i * 2 + x) (j * 2 + y) (patternAt p x y) := by
  unfold writeCell
  split_ifs <;> rfl

theorem writeCell_snd (pixel p i j : Nat) (s : cv.Mat × cv.Mat) (x y : Nat) :
    (writeCell pixel p i j s x y).2
      = s.2.put (i * 2 + x) (j * 2 + y)
          (if pixel = 255 then patternAt p x y
           else if patternAt p x y = 255 then 0 else 255) := by
  unfold writeCell
  split_ifs <;> rfl

theorem writeBlock_shape {H W : Nat} (pixel p i j : Nat) (s : cv.Mat × cv.Mat)
    (h1 : ShareShape H W s.1) (h2 : ShareShape H W s.2) :
    ShareShape H W (writeBlock pixel p i j s).1 ∧ ShareShape H W (writeBlock pixel p i j s).2 := by
  rw [writeBlock_unfold]
  simp only [writeCell_fst, writeCell_snd]
  exact ⟨(((h1.put _ _ _).put _ _ _).put _ _ _).put _ _ _,
    (((h2.put _ _ _).put _ _ _).put _ _ _).put _ _ _⟩

/-- Reading a share after the four cell writes of the block of pixel (i, j),
the cell (x, y) of the block receiving `v x y`. -/
theorem at_four_puts {H W : Nat} {m : cv.Mat} (h : ShareShape H W m) {i j : Nat}
    (hi : i < H) (hj : j < W) (v : Nat → Nat → Nat) (r c : Nat) (hc : c < W * 2) :
    ((((m.put (i * 2 + 0) (j * 2 + 0) (v 0 0)).put (i * 2 + 0) (j * 2 + 1) (v 0 1)).put
        (i * 2 + 1) (j * 2 + 0) (v 1 0)).put (i * 2 + 1) (j * 2 + 1) (v 1 1)).at r c
      = if r / 2 = i ∧ c / 2 = j then v (r % 2) (c % 2) else m.at r c := by
  have a := h
  have b := a.put (i * 2 + 0) (j * 2 + 0) (v 0 0)
  have d := b.put (i * 2 + 0) (j * 2 + 1) (v 0 1)
  have e := d.put (i * 2 + 1) (j * 2 + 0) (v 1 0)
  rw [at_put_share e hi hj (by omega) (by omega) _ r c hc,
    at_put_share d hi hj (by omega) (by omega) _ r c hc,
    at_put_share b hi hj (by omega) (by omega) _ r c hc,
    at_put_share a hi hj (by omega) (by omega) _ r c hc]
  by_cases hb : r / 2 = i ∧ c / 2 = j
  · rw [if_pos hb]
    obtain ⟨hr, hcj⟩ := hb
    have hr2 : r % 2 = 0 ∨ r % 2 = 1 := by omega
    have hc2 : c % 2 = 0 ∨ c % 2 = 1 := by omega
    rcases hr2 with hr2 | hr2 <;> rcases hc2 with hc2 | hc2 <;> rw [hr2, hc2]
    · have n1 : ¬ (i * 2 + 1 = r ∧ j * 2 + 1 = c) := by omega
      have n2 : ¬ (i * 2 + 1 = r ∧ j * 2 + 0 = c) := by omega
      have n3 : ¬ (i * 2 + 0 = r ∧ j * 2 + 1 = c) := by omega
      have n4 : i * 2 + 0 = r ∧ j * 2 + 0 = c := by omega
      rw [if_neg n1, if_neg n2, if_neg n3, if_pos n4]
    · have n1 : ¬ (i * 2 + 1 = r ∧ j * 2 + 1 = c) := by omega
      have n2 : ¬ (i * 2 + 1 = r ∧ j * 2 + 0 = c) := by omega
      have n3 : i * 2 + 0 = r ∧ j * 2 + 1 = c := by omega
      rw [if_neg n1, if_neg n2, if_pos n3]
    · have n1 : ¬ (i * 2 + 1 = r ∧ j * 2 + 1 = c) := by omega
      have n2 : i * 2 + 1 = r ∧ j * 2 + 0 = c := by omega
      rw [if_neg n1, if_pos n2]
    · have n1 : i * 2 + 1 = r ∧ j * 2 + 1 = c := by omega
      rw [if_pos n1]
  · have n1 : ¬ (i * 2 + 1 = r ∧ j * 2 + 1 = c) := by omega
    have n2 : ¬ (i * 2 + 1 = r ∧ j * 2 + 0 = c) := by omega
    have n3 : ¬ (i * 2 + 0 = r ∧ j * 2 + 1 = c) := by omega
    have n4 : ¬ (i * 2 + 0 = r ∧ j * 2 + 0 = c) := by omega
    rw [if_neg n1, if_neg n2, if_neg n3, if_neg n4, if_neg hb]

/-- Cells of share1 after the block of pixel (i, j) is written. -/
theorem writeBlock_at_fst {H W : Nat} (pixel p i j : Nat) (s : cv.Mat × cv.Mat)
    (h1 : ShareShape H W s.1) (hi : i < H) (hj : j < W) (r c : Nat) (hc : c < W * 2) :
    (writeBlock pixel p i j s).1.at r c
      = if r / 2 = i ∧ c / 2 = j then patternAt p (r % 2) (c % 2) else s.1.at r c := by
  rw [writeBlock_unfold]
  simp only [writeCell_fst]
  exact at_four_puts h1 hi hj (patternAt p) r c hc

/-- Cells of share2 after the block of pixel (i, j) is written. -/
theorem writeBlock_at_snd {H W : Nat} (pixel p i j : Nat) (s : cv.Mat × cv.Mat)
    (h2 : ShareShape H W s.2) (hi : i < H) (hj : j < W) (r c : Nat) (hc : c < W * 2) :
    (writeBlock pixel p i j s).2.at r c
      = if r / 2 = i ∧ c / 2 = j then cell2 pixel p r c else s.2.at r c := by
  rw [writeBlock_unfold]
  simp only [writeCell_snd]
  exact at_four_puts h2 hi hj
    (fun x y => if pixel = 255 then patternAt p x y
      else if patternAt p x y = 255 then 0 else 255) r c hc

theorem loopInv_init (original : cv.Mat) (rng0 : Rng) (H W : Nat) :
    LoopInv original rng0 H W 0 0
      { share1 := cv.Mat.zeros (H * 2) (W * 2), share2 := cv.Mat.zeros (H * 2) (W * 2),
        rng := rng0 } where
  shape1 := shareShape_zeros H W
  shape2 := shareShape_zeros H W
  rng := by simp
  cells := by
    intro r c _ h
    omega

theorem loopInv_pixel {original : cv.Mat} {rng0 : Rng} {H W i j : Nat} {st : GenState}
    (inv : LoopInv original rng0 H W i j st) (hi : i < H) (hj : j < W) :
    LoopInv original rng0 H W i (j + 1) (pixelBody original i st j) where
  shape1 := (writeBlock_shape _ _ i j (st.share1, st.share2) inv.shape1 inv.shape2).1
  shape2 := (writeBlock_shape _ _ i j (st.share1, st.share2) inv.shape1 inv.shape2).2
  rng := by
    simp only [pixelBody, Rng.dist, inv.rng]
    simp [Nat.add_assoc]
  cells := by
    intro r c hc hdone
    have hbit : (Rng.dist st.rng).1 = bitFor rng0 W i j := by
      simp [Rng.dist, inv.rng, bitFor]
    simp only [pixelBody]
    rw [writeBlock_at_fst _ _ i j (st.share1, st.share2) inv.shape1 hi hj r c hc,
      writeBlock_at_snd _ _ i j (st.share1, st.share2) inv.shape2 hi hj r c hc, hbit]
    by_cases hb : r / 2 = i ∧ c / 2 = j
    · rw [if_pos hb, if_pos hb, hb.1, hb.2]
      exact ⟨rfl, rfl⟩
    · rw [if_neg hb, if_neg hb]
      exact inv.cells r c hc (by omega)

theorem loopInv_row {original : cv.Mat} {rng0 : Rng} {H W i : Nat} (hi : i < H) (n : Nat) :
    ∀ st : GenState, LoopInv original rng0 H W i 0 st → n ≤ W →
      LoopInv original rng0 H W i n
        ((List.range n).foldl (fun st j => pixelBody original i st j) st) := by
  induction n with
  | zero =>
    intro st inv _
    simpa using inv
  | succ n ih =>
    intro st inv hn
    rw [List.range_succ, List.foldl_append]
    exact loopInv_pixel (ih st inv (by omega)) hi (by omega)

theorem loopInv_nextRow {original : cv.Mat} {rng0 : Rng} {H W i : Nat} {st : GenState}
    (inv : LoopInv original rng0 H W i W st) : LoopInv original rng0 H W (i + 1) 0 st where
  shape1 := inv.shape1
  shape2 := inv.shape2
  rng := by
    rw [inv.rng]
    congr 2
    ring
  cells := by
    intro r c hc hdone
    exact inv.cells r c hc (by omega)

theorem loopInv_rows {original : cv.Mat} {rng0 : Rng} {H W : Nat} (n : Nat) :
    ∀ st : GenState, LoopInv original rng0 H W 0 0 st → n ≤ H →
      LoopInv original rng0 H W n 0
        ((List.range n).foldl
          (fun st i => (List.range W).foldl (fun st j => pixelBody original i st j) st) st) := by
  induction n with
  | zero =>
    intro st inv _
    simpa using inv
  | succ n ih =>
    intro st inv hn
    rw [List.range_succ, List.foldl_append]
    exact loopInv_nextRow (loopInv_row (by omega) W _ (ih st inv (by omega)) (le_refl W))

/-- The state in which the loops of `generateShares` end. -/
theorem shareLoops_inv (original : cv.Mat) (rng0 : Rng) (H W : Nat) :
    LoopInv original rng0 H W H 0
      (shareLoops original H W
        { share1 := cv.Mat.zeros (H * 2) (W * 2), share2 := cv.Mat.zeros (H * 2) (W * 2),
          rng := rng0 }) :=
  loopInv_rows H _ (loopInv_init original rng0 H W) (le_refl H)

/-! ## Summary lemmas -/

/-- The method `generateShares` always returns: its result is the final state
of the loops started on two zero matrices. -/
theorem generateShares_eq (vc : VisualCryptography) :
    vc.generateShares
      = .ok (((shareLoops vc.original vc.height vc.width
                { share1 := cv.Mat.zeros (vc.height * 2) (vc.width * 2),
                  share2 := cv.Mat.zeros (vc.height * 2) (vc.width * 2),
                  rng := vc.rng }).share1,
              (shareLoops vc.original vc.height vc.width
                { share1 := cv.Mat.zeros (vc.height * 2) (vc.width * 2),
                  share2 := cv.Mat.zeros (vc.height * 2) (vc.width * 2),
                  rng := vc.rng }).share2),
             { vc with rng := (shareLoops vc.original vc.height vc.width
                { share1 := cv.Mat.zeros (vc.height * 2) (vc.width * 2),
                  share2 := cv.Mat.zeros (vc.height * 2) (vc.width * 2),
                  rng := vc.rng }).rng }) := rfl

theorem complement_pattern (p x y : Nat) (hp : p < 2) (hx : x < 2) (hy : y < 2) :
    (if patternAt p x y = 255 then 0 else 255) = patternAt (1 - p) x y := by
  interval_cases p <;> interval_cases x <;> interval_cases y <;> decide

theorem bitFor_lt (rng0 : Rng) (W i j : Nat) : bitFor rng0 W i j < 2 :=
  (rng0.bits _).isLt

/-- Everything the claims need about one call of `generateShares` on the object
that holds `img`: the result, its shape, the generator afterwards and the two
blocks of every source pixel. -/
theorem generateShares_full (img : cv.Mat) (rng : Rng) :
    ∃ s1 s2 : cv.Mat,
      (VisualCryptography.holding img rng).generateShares
        = .ok ((s1, s2), VisualCryptography.holding img
            { bits := rng.bits, pos := rng.pos + img.rows * img.cols })
      ∧ ShareShape img.rows img.cols s1 ∧ ShareShape img.rows img.cols s2
      ∧ (∀ r c, r < img.rows * 2 → c < img.cols * 2 →
          s1.at r c = patternAt (bitFor rng img.cols (r / 2) (c / 2)) (r % 2) (c % 2)
          ∧ s2.at r c
              = cell2 (img.at (r / 2) (c / 2)) (bitFor rng img.cols (r / 2) (c / 2)) r c)
      ∧ ∀ i j, i < img.rows → j < img.cols →
          block s1 i j = pattern (bitFor rng img.cols i j)
          ∧ block s2 i j
              = (if img.at i j = 255 then pattern (bitFor rng img.cols i j)
                 else pattern (1 - bitFor rng img.cols i j)) := by
  have inv := shareLoops_inv img rng img.rows img.cols
  refine ⟨_, _, ?_, inv.shape1, inv.shape2,
    fun r c hr hc => inv.cells r c hc (by omega), ?_⟩
  · rw [generateShares_eq]
    simp only [VisualCryptography.holding]
    rw [inv.rng]
    simp
  · intro i j hi hj
    have d0 : (2 * i) / 2 = i := by omega
    have d1 : (2 * i + 1) / 2 = i := by omega
    have m0 : (2 * i) % 2 = 0 := by omega
    have m1 : (2 * i + 1) % 2 = 1 := by omega
    have e0 : (2 * j) / 2 = j := by omega
    have e1 : (2 * j + 1) / 2 = j := by omega
    have n0 : (2 * j) % 2 = 0 := by omega
    have n1 : (2 * j + 1) % 2 = 1 := by omega
    have c00 := inv.cells (2 * i) (2 * j) (by omega) (by omega)
    have c01 := inv.cells (2 * i) (2 * j + 1) (by omega) (by omega)
    have c10 := inv.cells (2 * i + 1) (2 * j) (by omega) (by omega)
    have c11 := inv.cells (2 * i + 1) (2 * j + 1) (by omega) (by omega)
    simp only [d0, d1, m0, m1, e0, e1, n0, n1, cell2] at c00 c01 c10 c11
    have hlt := bitFor_lt rng img.cols i j
    constructor
    · simp only [block, pattern, c00.1, c01.1, c10.1, c11.1]
    · simp only [block, c00.2, c01.2, c10.2, c11.2]
      by_cases hw : img.at i j = 255
      · simp only [if_pos hw, pattern]
      · simp only [if_neg hw, pattern]
        rw [complement_pattern _ 0 0 hlt (by omega) (by omega),
          complement_pattern _ 0 1 hlt (by omega) (by omega),
          complement_pattern _ 1 0 hlt (by omega) (by omega),
          complement_pattern _ 1 1 hlt (by omega) (by omega)]

/-- The result of `generateShares`, its shape, the generator afterwards and
the two blocks of every source pixel. -/
theorem generateShares_spec (img : cv.Mat) (rng : Rng) :
    ∃ s1 s2 : cv.Mat,
      (VisualCryptography.holding img rng).generateShares
        = .ok ((s1, s2), VisualCryptography.holding img
            { bits := rng.bits, pos := rng.pos + img.rows * img.cols })
      ∧ ShareShape img.rows img.cols s1 ∧ ShareShape img.rows img.cols s2
      ∧ ∀ i j, i < img.rows → j < img.cols →
          block s1 i j = pattern (bitFor rng img.cols i j)
          ∧ block s2 i j
              = (if img.at i j = 255 then pattern (bitFor rng img.cols i j)
                 else pattern (1 - bitFor rng img.cols i j)) := by
  obtain ⟨s1, s2, hgen, h1, h2, _, hblocks⟩ := generateShares_full img rng
  exact ⟨s1, s2, hgen, h1, h2, hblocks⟩

/-- Two matrices with the shape of a share and the same cells are equal. -/
theorem shareShape_ext {H W : Nat} {a b : cv.Mat} (ha : ShareShape H W a) (hb : ShareShape H W b)
    (h : ∀ r c, r < H * 2 → c < W * 2 → a.at r c = b.at r c) : a = b := by
  obtain ⟨a1, a2, a3, a4⟩ := ha
  obtain ⟨b1, b2, b3, b4⟩ := hb
  have hdata : a.data = b.data := by
    apply List.ext_getElem (by rw [a4, b4])
    intro n hn1 hn2
    have hn : n < H * 2 * (W * 2) := by rw [← a4]; exact hn1
    have hWpos : 0 < W * 2 := by
      rcases Nat.eq_zero_or_pos (W * 2) with h0 | h0
      · rw [h0] at hn; simp at hn
      · exact h0
    have hc : n % (W * 2) < W * 2 := Nat.mod_lt _ hWpos
    have hr : n / (W * 2) < H * 2 := by
      rw [Nat.div_lt_iff_lt_mul hWpos]
      exact hn
    have hidx : n / (W * 2) * (W * 2) + n % (W * 2) = n := Nat.div_add_mod' n (W * 2)
    have := h (n / (W * 2)) (n % (W * 2)) hr hc
    simp only [cv.Mat.at, cv.Mat.step, a2, a3, b2, b3, Nat.mul_one, hidx,
      List.getD_eq_getElem?_getD, List.getElem?_eq_getElem hn1,
      List.getElem?_eq_getElem hn2, Option.getD_some] at this
    exact this
  cases a
  cases b
  simp only [cv.Mat.mk.injEq]
  simp only at a1 a2 a3 b1 b2 b3 hdata
  exact ⟨by rw [a1, b1], by rw [a2, b2], by rw [a3, b3], hdata⟩

/-- The method `overlayShares` on operands of the same size and type. -/
theorem overlayShares_eq (A B : cv.Mat) (hs : A.size = B.size) (hc : A.channels = B.channels) :
    VisualCryptography.overlayShares A B
      = .ok { A with data := List.zipWith (fun a b => a &&& b) A.data B.data } := by
  simp [VisualCryptography.overlayShares, cv.bitwise_and, rethrow, hs, hc]

/-- Cells of the conjunction of two buffers with the same row length. -/
theorem at_zipWith_and (A B : cv.Mat) (hstep : A.step = B.step) (x y : Nat) :
    cv.Mat.at { A with data := List.zipWith (fun a b => a &&& b) A.data B.data } x y
      = A.at x y &&& B.at x y := by
  unfold cv.Mat.at
  simp only [List.getD_eq_getElem?_getD, List.getElem?_zipWith, cv.Mat.step] at *
  rw [← hstep]
  cases hA : A.data[x * (A.cols * A.channels) + y]? <;>
    cases hB : B.data[x * (A.cols * A.channels) + y]? <;> simp

theorem block_zipWith_and (A B : cv.Mat) (hstep : A.step = B.step) (i j : Nat) :
    block { A with data := List.zipWith (fun a b => a &&& b) A.data B.data } i j
      = andBlock (block A i j) (block B i j) := by
  simp [block, andBlock, at_zipWith_and A B hstep]

theorem andBlock_complement (p : Nat) (hp : p < 2) :
    andBlock (pattern p) (pattern (1 - p)) = [[0, 0], [0, 0]] := by
  interval_cases p <;> decide

theorem andBlock_self (p : Nat) (hp : p < 2) : andBlock (pattern p) (pattern p) = pattern p := by
  interval_cases p <;> decide

/-- One run of generation followed by overlay: it succeeds, the shares have the
shape of a share, and every block of the three matrices is known. -/
theorem shareRun_spec (img : cv.Mat) (rng : Rng) :
    ∃ s1 s2 R : cv.Mat,
      shareRun img rng = .ok (s1, s2, R)
      ∧ ShareShape img.rows img.cols s1 ∧ ShareShape img.rows img.cols s2
      ∧ ShareShape img.rows img.cols R
      ∧ ∀ i j, i < img.rows → j < img.cols →
          block s1 i j = pattern (bitFor rng img.cols i j)
          ∧ block s2 i j
              = (if img.at i j = 255 then pattern (bitFor rng img.cols i j)
                 else pattern (1 - bitFor rng img.cols i j))
          ∧ block R i j
              = (if img.at i j = 255 then pattern (bitFor rng img.cols i j)
                 else [[0, 0], [0, 0]]) := by
  obtain ⟨s1, s2, hgen, h1, h2, hblocks⟩ := generateShares_spec img rng
  have hsize : s1.size = s2.size := by
    simp [cv.Mat.size, h1.1, h1.2.1, h2.1, h2.2.1]
  have hch : s1.channels = s2.channels := by rw [h1.2.2.1, h2.2.2.1]
  have hstep : s1.step = s2.step := by rw [h1.step, h2.step]
  refine ⟨s1, s2, { s1 with data := List.zipWith (fun a b => a &&& b) s1.data s2.data },
    ?_, h1, h2, ?_, ?_⟩
  · simp only [shareRun, hgen, bind, Except.bind, overlayShares_eq s1 s2 hsize hch]
    rfl
  · refine ⟨h1.1, h1.2.1, h1.2.2.1, ?_⟩
    simp [h1.2.2.2, h2.2.2.2]
  · intro i j hi hj
    obtain ⟨b1, b2⟩ := hblocks i j hi hj
    refine ⟨b1, b2, ?_⟩
    rw [block_zipWith_and s1 s2 hstep, b1, b2]
    have hlt := bitFor_lt rng img.cols i j
    by_cases hw : img.at i j = 255
    · rw [if_pos hw, if_pos hw, andBlock_self _ hlt]
    · rw [if_neg hw, if_neg hw, andBlock_complement _ hlt]

theorem countCells_pattern (p : Nat) (hp : p < 2) :
    countCells WHITE (pattern p) = 2 ∧ countCells BLACK (pattern p) = 2 := by
  interval_cases p <;> decide

theorem pattern_ne_uniform (p : Nat) (hp : p < 2) :
    pattern p ≠ [[BLACK, BLACK], [BLACK, BLACK]] ∧ pattern p ≠ [[WHITE, WHITE], [WHITE, WHITE]] := by
  interval_cases p <;> decide

/-! ## Reconstruction and balance laws -/

/-- C1, reconstruction-black law: for every raster, every generator and every
source pixel (i, j) of the raster whose value is BLACK, generation followed by
overlay succeeds and the four cells of the reconstruction at rows 2i, 2i+1 and
columns 2j, 2j+1 are BLACK, whatever bit is drawn for the pixel. -/
theorem reconstruction_black (img : cv.Mat) (rng : Rng) (i j : Nat)
    (hi : i < img.rows) (hj : j < img.cols) (hb : img.at i j = BLACK) :
    ∃ s1 s2 R : cv.Mat, shareRun img rng = .ok (s1, s2, R)
      ∧ block R i j = [[BLACK, BLACK], [BLACK, BLACK]] := by
  obtain ⟨s1, s2, R, hrun, _, _, _, hblocks⟩ := shareRun_spec img rng
  refine ⟨s1, s2, R, hrun, ?_⟩
  rw [(hblocks i j hi hj).2.2, hb]
  rfl

/-- Witness of C1: the 2x2 checkerboard with BLACK at (0, 0), bits 0, 1, 1, 0. -/
theorem reconstruction_black_witness :
    (0 < (rasterOfRows 2 [[0, 255], [255, 0]]).rows
      ∧ (rasterOfRows 2 [[0, 255], [255, 0]]).at 0 0 = BLACK)
    ∧ ∃ s1 s2 R : cv.Mat,
        shareRun (rasterOfRows 2 [[0, 255], [255, 0]]) (Rng.ofList [0, 1, 1, 0]) = .ok (s1, s2, R)
        ∧ block R 0 0 = [[BLACK, BLACK], [BLACK, BLACK]] :=
  ⟨by decide,
   reconstruction_black (rasterOfRows 2 [[0, 255], [255, 0]]) (Rng.ofList [0, 1, 1, 0]) 0 0
    (by decide) (by decide) (by decide)⟩

/-- C2, reconstruction-white law: for every raster, every generator and every
source pixel (i, j) whose value is WHITE, the block of the reconstruction at
rows 2i, 2i+1 and columns 2j, 2j+1 is the canonical pattern selected by the bit
drawn for the pixel; it has exactly 2 WHITE and 2 BLACK cells and is neither
all BLACK nor all WHITE. -/
theorem reconstruction_white (img : cv.Mat) (rng : Rng) (i j : Nat)
    (hi : i < img.rows) (hj : j < img.cols) (hw : img.at i j = WHITE) :
    ∃ s1 s2 R : cv.Mat, shareRun img rng = .ok (s1, s2, R)
      ∧ block R i j = pattern (rng.bits (rng.pos + (i * img.cols + j))).val
      ∧ countCells WHITE (block R i j) = 2 ∧ countCells BLACK (block R i j) = 2
      ∧ block R i j ≠ [[BLACK, BLACK], [BLACK, BLACK]]
      ∧ block R i j ≠ [[WHITE, WHITE], [WHITE, WHITE]] := by
  obtain ⟨s1, s2, R, hrun, _, _, _, hblocks⟩ := shareRun_spec img rng
  have hR : block R i j = pattern (bitFor rng img.cols i j) := by
    rw [(hblocks i j hi hj).2.2, if_pos hw]
  have hlt := bitFor_lt rng img.cols i j
  refine ⟨s1, s2, R, hrun, hR, ?_, ?_, ?_, ?_⟩
  · rw [hR]; exact (countCells_pattern _ hlt).1
  · rw [hR]; exact (countCells_pattern _ hlt).2
  · rw [hR]; exact (pattern_ne_uniform _ hlt).1
  · rw [hR]; exact (pattern_ne_uniform _ hlt).2

/-- Witness of C2: the 2x2 checkerboard, WHITE pixel (0, 1), bits 0, 1, 1, 0. -/
theorem reconstruction_white_witness :
    (1 < (rasterOfRows 2 [[0, 255], [255, 0]]).cols
      ∧ (rasterOfRows 2 [[0, 255], [255, 0]]).at 0 1 = WHITE)
    ∧ ∃ s1 s2 R : cv.Mat,
        shareRun (rasterOfRows 2 [[0, 255], [255, 0]]) (Rng.ofList [0, 1, 1, 0]) = .ok (s1, s2, R)
        ∧ block R 0 1
            = pattern ((Rng.ofList [0, 1, 1, 0]).bits
                ((Rng.ofList [0, 1, 1, 0]).pos
                  + (0 * (rasterOfRows 2 [[0, 255], [255, 0]]).cols + 1))).val
        ∧ countCells WHITE (block R 0 1) = 2 ∧ countCells BLACK (block R 0 1) = 2
        ∧ block R 0 1 ≠ [[BLACK, BLACK], [BLACK, BLACK]]
        ∧ block R 0 1 ≠ [[WHITE, WHITE], [WHITE, WHITE]] :=
  ⟨by decide,
   reconstruction_white (rasterOfRows 2 [[0, 255], [255, 0]]) (Rng.ofList [0, 1, 1, 0]) 0 1
    (by decide) (by decide) (by decide)⟩

/-- C3, single-share balance law: for every raster, every generator and every
source pixel (i, j), whatever its value, the block of share1 at rows 2i, 2i+1
and columns 2j, 2j+1 has exactly 2 WHITE and 2 BLACK cells, and so has the
block of share2; the counts do not depend on the source pixel. -/
theorem single_share_balance (img : cv.Mat) (rng : Rng) (i j : Nat)
    (hi : i < img.rows) (hj : j < img.cols) :
    ∃ (s1 s2 : cv.Mat) (after : VisualCryptography),
      (VisualCryptography.holding img rng).generateShares = .ok ((s1, s2), after)
      ∧ countCells WHITE (block s1 i j) = 2 ∧ countCells BLACK (block s1 i j) = 2
      ∧ countCells WHITE (block s2 i j) = 2 ∧ countCells BLACK (block s2 i j) = 2 := by
  obtain ⟨s1, s2, hgen, _, _, hblocks⟩ := generateShares_spec img rng
  obtain ⟨b1, b2⟩ := hblocks i j hi hj
  have hlt := bitFor_lt rng img.cols i j
  have hlt2 : 1 - bitFor rng img.cols i j < 2 := by omega
  refine ⟨s1, s2, _, hgen, ?_, ?_, ?_, ?_⟩
  · rw [b1]; exact (countCells_pattern _ hlt).1
  · rw [b1]; exact (countCells_pattern _ hlt).2
  · rw [b2]; split_ifs
    · exact (countCells_pattern _ hlt).1
    · exact (countCells_pattern _ hlt2).1
  · rw [b2]; split_ifs
    · exact (countCells_pattern _ hlt).2
    · exact (countCells_pattern _ hlt2).2

/-- Witness of C3: the 2x2 checkerboard, pixel (1, 0), bits 0, 1, 1, 0. -/
theorem single_share_balance_witness :
    (1 < (rasterOfRows 2 [[0, 255], [255, 0]]).rows ∧ 0 < (rasterOfRows 2 [[0, 255], [255, 0]]).cols)
    ∧ ∃ (s1 s2 : cv.Mat) (after : VisualCryptography),
        (VisualCryptography.holding (rasterOfRows 2 [[0, 255], [255, 0]])
            (Rng.ofList [0, 1, 1, 0])).generateShares = .ok ((s1, s2), after)
        ∧ countCells WHITE (block s1 1 0) = 2 ∧ countCells BLACK (block s1 1 0) = 2
        ∧ countCells WHITE (block s2 1 0) = 2 ∧ countCells BLACK (block s2 1 0) = 2 :=
  ⟨by decide,
   single_share_balance (rasterOfRows 2 [[0, 255], [255, 0]]) (Rng.ofList [0, 1, 1, 0]) 1 0
    (by decide) (by decide)⟩

/-! ## Single-share security -/

theorem bitFor_withBit (rng : Rng) (W i j : Nat) (b : Fin 2) :
    bitFor (rng.withBit (rng.pos + (i * W + j)) b) W i j = b.val := by
  simp [bitFor, Rng.withBit]

theorem shareBlockA_eq (img : cv.Mat) (rng : Rng) (i j : Nat)
    (hi : i < img.rows) (hj : j < img.cols) :
    shareBlockA img rng i j = some (pattern (bitFor rng img.cols i j)) := by
  obtain ⟨s1, s2, hgen, _, _, hblocks⟩ := generateShares_spec img rng
  simp only [shareBlockA, hgen, (hblocks i j hi hj).1]

theorem shareBlockB_eq (img : cv.Mat) (rng : Rng) (i j : Nat)
    (hi : i < img.rows) (hj : j < img.cols) :
    shareBlockB img rng i j
      = some (if img.at i j = 255 then pattern (bitFor rng img.cols i j)
              else pattern (1 - bitFor rng img.cols i j)) := by
  obtain ⟨s1, s2, hgen, _, _, hblocks⟩ := generateShares_spec img rng
  simp only [shareBlockB, hgen, (hblocks i j hi hj).2]

theorem pattern_zero_ne_one : pattern 0 ≠ pattern 1 := by decide

/-- A map from the bit to blocks that sends the two bits to the two patterns,
in either order, is a bijection onto the set of the two patterns and has
fibres of size one. -/
theorem bijOn_patterns (f : Fin 2 → Option (List (List Nat)))
    (h : (f 0 = some (pattern 0) ∧ f 1 = some (pattern 1))
      ∨ (f 0 = some (pattern 1) ∧ f 1 = some (pattern 0))) :
    Set.BijOn f Set.univ {some (pattern 0), some (pattern 1)}
    ∧ ∀ p : Fin 2, (Finset.univ.filter (fun b : Fin 2 => f b = some (pattern p.val))).card = 1 := by
  have hne := pattern_zero_ne_one
  have hne2 : pattern 1 ≠ pattern 0 := fun e => hne e.symm
  constructor
  · refine ⟨?_, ?_, ?_⟩
    · intro b _
      fin_cases b <;> rcases h with ⟨h0, h1⟩ | ⟨h0, h1⟩ <;> simp [h0, h1]
    · intro a _ b _ hab
      fin_cases a <;> fin_cases b <;> rcases h with ⟨h0, h1⟩ | ⟨h0, h1⟩ <;>
        simp_all
    · intro y hy
      rcases hy with rfl | hy
      · rcases h with ⟨h0, _⟩ | ⟨_, h1⟩
        · exact ⟨0, trivial, h0⟩
        · exact ⟨1, trivial, h1⟩
      · rw [Set.mem_singleton_iff] at hy
        subst hy
        rcases h with ⟨_, h1⟩ | ⟨h0, _⟩
        · exact ⟨1, trivial, h1⟩
        · exact ⟨0, trivial, h0⟩
  · intro p
    rw [Finset.card_filter, Fin.sum_univ_two]
    fin_cases p <;> rcases h with ⟨h0, h1⟩ | ⟨h0, h1⟩ <;> simp [h0, h1, hne, hne2]

/-- C4, single-share security: fix a raster, a generator and a source pixel
(i, j), and let the bit `b` drawn for that pixel vary.  The map from `b` to the
block written into share1 is a bijection from the two bits onto the two
canonical patterns, and so is the map from `b` to the block written into
share2, whatever the value of the source pixel.  Each pattern is therefore
produced by exactly one of the two bits, in each share, for a BLACK and for a
WHITE source pixel alike. -/
theorem single_share_security (img : cv.Mat) (rng : Rng) (i j : Nat)
    (hi : i < img.rows) (hj : j < img.cols) :
    Set.BijOn (fun b : Fin 2 => shareBlockA img (rng.withBit (rng.pos + (i * img.cols + j)) b) i j)
        Set.univ {some (pattern 0), some (pattern 1)}
    ∧ Set.BijOn (fun b : Fin 2 => shareBlockB img (rng.withBit (rng.pos + (i * img.cols + j)) b) i j)
        Set.univ {some (pattern 0), some (pattern 1)}
    ∧ (∀ p : Fin 2, (Finset.univ.filter (fun b : Fin 2 =>
          shareBlockA img (rng.withBit (rng.pos + (i * img.cols + j)) b) i j
            = some (pattern p.val))).card = 1)
    ∧ (∀ p : Fin 2, (Finset.univ.filter (fun b : Fin 2 =>
          shareBlockB img (rng.withBit (rng.pos + (i * img.cols + j)) b) i j
            = some (pattern p.val))).card = 1) := by
  have hA : ∀ b : Fin 2,
      shareBlockA img (rng.withBit (rng.pos + (i * img.cols + j)) b) i j
        = some (pattern b.val) := by
    intro b
    have h := shareBlockA_eq img (rng.withBit (rng.pos + (i * img.cols + j)) b) i j hi hj
    have hpos : (rng.withBit (rng.pos + (i * img.cols + j)) b).pos = rng.pos := rfl
    have hbit := bitFor_withBit rng img.cols i j b
    rw [h, hbit]
  have hB : ∀ b : Fin 2,
      shareBlockB img (rng.withBit (rng.pos + (i * img.cols + j)) b) i j
        = some (if img.at i j = 255 then pattern b.val else pattern (1 - b.val)) := by
    intro b
    have h := shareBlockB_eq img (rng.withBit (rng.pos + (i * img.cols + j)) b) i j hi hj
    have hbit := bitFor_withBit rng img.cols i j b
    rw [h, hbit]
  have rA := bijOn_patterns
    (fun b : Fin 2 => shareBlockA img (rng.withBit (rng.pos + (i * img.cols + j)) b) i j)
    (Or.inl ⟨hA 0, hA 1⟩)
  have rB := bijOn_patterns
    (fun b : Fin 2 => shareBlockB img (rng.withBit (rng.pos + (i * img.cols + j)) b) i j)
    (by
      by_cases hw : img.at i j = 255
      · left
        exact ⟨by simpa [hw] using hB 0, by simpa [hw] using hB 1⟩
      · right
        exact ⟨by simpa [hw] using hB 0, by simpa [hw] using hB 1⟩)
  exact ⟨rA.1, rB.1, rA.2, rB.2⟩

/-- Witness of C4: the 1x2 raster BLACK, WHITE and its WHITE pixel (0, 1). -/
theorem single_share_security_witness :
    (0 < (rasterOfRows 2 [[0, 255]]).rows ∧ 1 < (rasterOfRows 2 [[0, 255]]).cols)
    ∧ Set.BijOn (fun b : Fin 2 => shareBlockA (rasterOfRows 2 [[0, 255]])
          ((Rng.ofList [0, 0]).withBit
            ((Rng.ofList [0, 0]).pos + (0 * (rasterOfRows 2 [[0, 255]]).cols + 1)) b) 0 1)
        Set.univ {some (pattern 0), some (pattern 1)} :=
  ⟨by decide,
   (single_share_security (rasterOfRows 2 [[0, 255]]) (Rng.ofList [0, 0]) 0 1
    (by decide) (by decide)).1⟩

/-! ## Dimensions and overlay -/

/-- C5, dimension law: for every raster of width W and height H and every
generator, generation followed by overlay succeeds, and both shares and the
reconstruction are single-channel matrices of width 2W and height 2H. -/
theorem dimension_law (img : cv.Mat) (rng : Rng) :
    ∃ s1 s2 R : cv.Mat, shareRun img rng = .ok (s1, s2, R)
      ∧ (s1.cols = 2 * img.cols ∧ s1.rows = 2 * img.rows)
      ∧ (s2.cols = 2 * img.cols ∧ s2.rows = 2 * img.rows)
      ∧ (R.cols = 2 * img.cols ∧ R.rows = 2 * img.rows)
      ∧ (s1.channels = 1 ∧ s2.channels = 1 ∧ R.channels = 1)
      ∧ s1.data.length = 2 * img.rows * (2 * img.cols)
      ∧ s2.data.length = 2 * img.rows * (2 * img.cols)
      ∧ R.data.length = 2 * img.rows * (2 * img.cols) := by
  obtain ⟨s1, s2, R, hrun, h1, h2, h3, _⟩ := shareRun_spec img rng
  obtain ⟨a1, a2, a3, a4⟩ := h1
  obtain ⟨b1, b2, b3, b4⟩ := h2
  obtain ⟨c1, c2, c3, c4⟩ := h3
  refine ⟨s1, s2, R, hrun, ⟨?_, ?_⟩, ⟨?_, ?_⟩, ⟨?_, ?_⟩, ⟨a3, b3, c3⟩, ?_, ?_, ?_⟩ <;>
    simp only [a1, a2, a4, b1, b2, b4, c1, c2, c4, Nat.mul_comm]

/-- C6, overlay is the cell-wise conjunction: for every two matrices A and B
of identical width and height (and of the same element type, as all rasters
are), `overlayShares` succeeds and returns a matrix of the same dimensions
whose cell (x, y) is the bitwise conjunction of the two cells; when both cells
are two-level, the result is WHITE if both are WHITE and BLACK otherwise. -/
theorem overlay_is_and (A B : cv.Mat) (hw : A.cols = B.cols) (hh : A.rows = B.rows)
    (hc : A.channels = B.channels) :
    ∃ R : cv.Mat, VisualCryptography.overlayShares A B = .ok R
      ∧ R.cols = A.cols ∧ R.rows = A.rows ∧ R.channels = A.channels
      ∧ (∀ x y, R.at x y = A.at x y &&& B.at x y)
      ∧ (∀ x y, (A.at x y = WHITE ∨ A.at x y = BLACK) → (B.at x y = WHITE ∨ B.at x y = BLACK) →
          R.at x y = if A.at x y = WHITE ∧ B.at x y = WHITE then WHITE else BLACK) := by
  have hs : A.size = B.size := by simp [cv.Mat.size, hw, hh]
  have hstep : A.step = B.step := by simp [cv.Mat.step, hw, hc]
  refine ⟨_, overlayShares_eq A B hs hc, rfl, rfl, rfl, at_zipWith_and A B hstep, ?_⟩
  intro x y hA hB
  rw [at_zipWith_and A B hstep]
  rcases hA with hA | hA <;> rcases hB with hB | hB <;> rw [hA, hB] <;> decide

/-- Witness of C6: two 2x2 two-level rasters. -/
theorem overlay_is_and_witness :
    ∃ R : cv.Mat,
      VisualCryptography.overlayShares (rasterOfRows 2 [[255, 0], [0, 255]])
        (rasterOfRows 2 [[255, 255], [0, 0]]) = .ok R
      ∧ R.cols = (rasterOfRows 2 [[255, 0], [0, 255]]).cols
      ∧ R.rows = (rasterOfRows 2 [[255, 0], [0, 255]]).rows
      ∧ R.channels = (rasterOfRows 2 [[255, 0], [0, 255]]).channels
      ∧ (∀ x y, R.at x y = (rasterOfRows 2 [[255, 0], [0, 255]]).at x y
            &&& (rasterOfRows 2 [[255, 255], [0, 0]]).at x y)
      ∧ (∀ x y, ((rasterOfRows 2 [[255, 0], [0, 255]]).at x y = WHITE
              ∨ (rasterOfRows 2 [[255, 0], [0, 255]]).at x y = BLACK) →
          ((rasterOfRows 2 [[255, 255], [0, 0]]).at x y = WHITE
              ∨ (rasterOfRows 2 [[255, 255], [0, 0]]).at x y = BLACK) →
          R.at x y = if (rasterOfRows 2 [[255, 0], [0, 255]]).at x y = WHITE
              ∧ (rasterOfRows 2 [[255, 255], [0, 0]]).at x y = WHITE then WHITE else BLACK) :=
  overlay_is_and (rasterOfRows 2 [[255, 0], [0, 255]]) (rasterOfRows 2 [[255, 255], [0, 0]])
    (by decide) (by decide) (by decide)

/-- C7, mismatch detection: when A and B differ in width or in height,
`overlayShares` fails with the error "Shares have different sizes" (as rethrown
by its handler) and returns no matrix; when they have the same width and
height that error is not raised, and for operands of the same element type
the call succeeds. -/
theorem overlay_mismatch (A B : cv.Mat) :
    ((A.cols ≠ B.cols ∨ A.rows ≠ B.rows) →
        VisualCryptography.overlayShares A B
          = .error "Error in overlay: Shares have different sizes")
    ∧ ((A.cols = B.cols ∧ A.rows = B.rows) →
        VisualCryptography.overlayShares A B
          ≠ .error "Error in overlay: Shares have different sizes")
    ∧ ((A.cols = B.cols ∧ A.rows = B.rows) → A.channels = B.channels →
        ∃ R : cv.Mat, VisualCryptography.overlayShares A B = .ok R) := by
  refine ⟨?_, ?_, ?_⟩
  · intro h
    have hs : A.size ≠ B.size := by
      simp only [cv.Mat.size, ne_eq, Prod.mk.injEq, not_and_or]
      exact h
    simp [VisualCryptography.overlayShares, hs, rethrow]
    rfl
  · rintro ⟨hw, hh⟩
    have hs : A.size = B.size := by simp [cv.Mat.size, hw, hh]
    by_cases hc : A.channels = B.channels
    · rw [overlayShares_eq A B hs hc]
      simp
    · simp [VisualCryptography.overlayShares, cv.bitwise_and, hs, hc, rethrow]
  · rintro ⟨hw, hh⟩ hc
    have hs : A.size = B.size := by simp [cv.Mat.size, hw, hh]
    exact ⟨_, overlayShares_eq A B hs hc⟩

/-- Witness of C7: a 2x1 and a 1x1 raster fail; two 1x1 rasters succeed. -/
theorem overlay_mismatch_witness :
    VisualCryptography.overlayShares (rasterOfRows 2 [[255, 0]]) (rasterOfRows 1 [[255]])
        = .error "Error in overlay: Shares have different sizes"
    ∧ VisualCryptography.overlayShares (rasterOfRows 1 [[0]]) (rasterOfRows 1 [[255]])
        ≠ .error "Error in overlay: Shares have different sizes"
    ∧ ∃ R : cv.Mat,
        VisualCryptography.overlayShares (rasterOfRows 1 [[0]]) (rasterOfRows 1 [[255]]) = .ok R :=
  ⟨(overlay_mismatch (rasterOfRows 2 [[255, 0]]) (rasterOfRows 1 [[255]])).1 (by decide),
   (overlay_mismatch (rasterOfRows 1 [[0]]) (rasterOfRows 1 [[255]])).2.1 (by decide),
   (overlay_mismatch (rasterOfRows 1 [[0]]) (rasterOfRows 1 [[255]])).2.2 (by decide) (by decide)⟩

/-! ## Input validation -/

/-- The constructor on a non-empty input that needs no resizing and no colour
conversion. -/
theorem new_of_small (resize cvtColor : cv.Mat → Except String cv.Mat) (img : cv.Mat) (rng : Rng)
    (hpos : 0 < img.cols ∧ 0 < img.rows) (hw : img.cols ≤ 400) (hh : img.rows ≤ 400)
    (hc : img.channels ≠ 3) :
    VisualCryptography.new resize cvtColor img rng
      = .ok (VisualCryptography.holding (cv.threshold img 128 255) rng) := by
  have he : img.empty = false := by
    have : img.rows * img.cols ≠ 0 := Nat.mul_ne_zero (by omega) (by omega)
    simp [cv.Mat.empty, this]
  have hsmall : ¬ (img.cols > VisualCryptography.MAX_WIDTH
      ∨ img.rows > VisualCryptography.MAX_HEIGHT) := by
    simp only [VisualCryptography.MAX_WIDTH, VisualCryptography.MAX_HEIGHT]
    omega
  simp [VisualCryptography.new, he, hsmall, rethrow, cv.Mat.clone, hc]
  rfl

theorem append_left_cancel_string {p a b : String} (h : p ++ a = p ++ b) : a = b := by
  have h2 := congrArg String.data h
  simp only [String.data_append] at h2
  exact String.ext (List.append_cancel_left h2)

theorem rethrow_eq_error {α : Type} {p e : String} {body : Except String α}
    (h : rethrow p body = .error (p ++ e)) : body = .error e := by
  cases body with
  | ok a => simp [rethrow] at h
  | error e2 =>
    simp only [rethrow, Except.error.injEq] at h
    rw [append_left_cancel_string h]

/-- C9, rejection of empty input: for an input with width 0 or height 0 the
constructor fails with the error "Input image is empty" (as rethrown by its
handler), so that no object exists and no shares are produced.  For an input
with positive width and height that error is not raised (the library calls
`resize` and `cvtColor` raising errors of their own only), and a non-empty
input of at most 400 x 400 that does not have 3 channels is accepted. -/
theorem empty_input_rejected (resize cvtColor : cv.Mat → Except String cv.Mat)
    (img : cv.Mat) (rng : Rng) :
    ((img.cols = 0 ∨ img.rows = 0) →
        VisualCryptography.new resize cvtColor img rng
          = .error "Error in constructor: Input image is empty"
        ∧ (VisualCryptography.new resize cvtColor img rng).bind (fun vc => vc.generateShares)
          = .error "Error in constructor: Input image is empty")
    ∧ ((0 < img.cols ∧ 0 < img.rows) →
        (∀ m, resize m ≠ .error "Input image is empty") →
        (∀ m, cvtColor m ≠ .error "Input image is empty") →
        VisualCryptography.new resize cvtColor img rng
          ≠ .error "Error in constructor: Input image is empty")
    ∧ ((0 < img.cols ∧ 0 < img.rows) → img.cols ≤ 400 → img.rows ≤ 400 → img.channels ≠ 3 →
        VisualCryptography.new resize cvtColor img rng
          = .ok (VisualCryptography.holding (cv.threshold img 128 255) rng)) := by
  refine ⟨?_, ?_, ?_⟩
  · intro h
    have he : img.empty = true := by
      rcases h with h | h <;> simp [cv.Mat.empty, h]
    have hnew : VisualCryptography.new resize cvtColor img rng
        = .error "Error in constructor: Input image is empty" := by
      simp [VisualCryptography.new, he, rethrow]
      rfl
    rw [hnew]
    exact ⟨rfl, rfl⟩
  · rintro ⟨hw, hh⟩ hres hcvt hnew
    have he : img.empty = false := by
      have : img.rows * img.cols ≠ 0 := Nat.mul_ne_zero (by omega) (by omega)
      simp [cv.Mat.empty, this]
    have hstr : ("Error in constructor: Input image is empty" : String)
        = "Error in constructor: " ++ "Input image is empty" := by decide
    rw [hstr] at hnew
    have hbody := rethrow_eq_error hnew
    simp only [he, Bool.false_eq_true, if_false] at hbody
    have post : ∀ y : cv.Mat,
        (if y.channels = 3 then do
            let gray ← cvtColor y
            let o ← (pure (cv.threshold gray 128 255) : Except String cv.Mat)
            pure (VisualCryptography.holding o rng)
          else do
            let o ← (pure (cv.threshold y 128 255) : Except String cv.Mat)
            pure (VisualCryptography.holding o rng))
          ≠ (.error "Input image is empty" : Except String VisualCryptography) := by
      intro y hy
      split_ifs at hy
      · cases hc : cvtColor y with
        | error e =>
          rw [hc] at hy
          simp only [bind, Except.bind, Except.error.injEq] at hy
          exact hcvt y (by rw [hc, hy])
        | ok g =>
          rw [hc] at hy
          simp [bind, Except.bind, pure, Except.pure] at hy
      · simp [bind, Except.bind, pure, Except.pure] at hy
    split_ifs at hbody
    · cases hr : resize img with
      | error e =>
        rw [hr] at hbody
        simp only [bind, Except.bind, pure, Except.pure, Except.error.injEq] at hbody
        exact hres img (by rw [hr, hbody])
      | ok y =>
        rw [hr] at hbody
        exact post y hbody
    · exact post img.clone hbody
  · rintro ⟨hw, hh⟩ hcw hch hc3
    have he : img.empty = false := by
      have : img.rows * img.cols ≠ 0 := Nat.mul_ne_zero (by omega) (by omega)
      simp [cv.Mat.empty, this]
    have hsmall : ¬ (img.cols > VisualCryptography.MAX_WIDTH
        ∨ img.rows > VisualCryptography.MAX_HEIGHT) := by
      simp only [VisualCryptography.MAX_WIDTH, VisualCryptography.MAX_HEIGHT]
      omega
    simp [VisualCryptography.new, he, hsmall, rethrow, cv.Mat.clone, hc3]
    rfl

/-- Witness of C9: the 0x0 input is rejected, the 1x1 input is accepted. -/
theorem empty_input_rejected_witness :
    (VisualCryptography.new (fun m => .ok m) (fun m => .ok m) (rasterOfRows 0 []) (Rng.ofList [])
          = .error "Error in constructor: Input image is empty"
      ∧ (VisualCryptography.new (fun m => .ok m) (fun m => .ok m) (rasterOfRows 0 [])
            (Rng.ofList [])).bind (fun vc => vc.generateShares)
          = .error "Error in constructor: Input image is empty")
    ∧ VisualCryptography.new (fun m => .ok m) (fun m => .ok m) (rasterOfRows 1 [[200]])
          (Rng.ofList [])
        ≠ .error "Error in constructor: Input image is empty"
    ∧ VisualCryptography.new (fun m => .ok m) (fun m => .ok m) (rasterOfRows 1 [[200]])
          (Rng.ofList [])
        = .ok (VisualCryptography.holding (cv.threshold (rasterOfRows 1 [[200]]) 128 255)
            (Rng.ofList [])) :=
  ⟨(empty_input_rejected (fun m => .ok m) (fun m => .ok m) (rasterOfRows 0 [])
      (Rng.ofList [])).1 (by decide),
   (empty_input_rejected (fun m => .ok m) (fun m => .ok m) (rasterOfRows 1 [[200]])
      (Rng.ofList [])).2.1 (by decide) (fun _ => by simp) (fun _ => by simp),
   (empty_input_rejected (fun m => .ok m) (fun m => .ok m) (rasterOfRows 1 [[200]])
      (Rng.ofList [])).2.2 (by decide) (by decide) (by decide) (by decide)⟩

/-! ## Use of the generator -/

/-- C10, randomness consumption: for every raster of width W and height H and
every generator, `generateShares` returns after exactly W*H calls of
`dist(rng)`.  The value used for pixel (i, j) is that of call number i*W + j
(from 0) after the start: it selects the pattern of the block of share1 and,
with the pixel, that of share2.  The generator afterwards is the same for
every raster of the same dimensions, and the shares depend on the generator
through those W*H values only. -/
theorem randomness_consumption (img : cv.Mat) (rng : Rng) :
    ∃ (s1 s2 : cv.Mat) (after : VisualCryptography),
      (VisualCryptography.holding img rng).generateShares = .ok ((s1, s2), after)
      ∧ after.rng.pos = rng.pos + img.cols * img.rows
      ∧ after.rng.bits = rng.bits
      ∧ (∀ i j, i < img.rows → j < img.cols →
          block s1 i j = pattern (rng.bits (rng.pos + (i * img.cols + j))).val
          ∧ block s2 i j
              = (if img.at i j = 255
                 then pattern (rng.bits (rng.pos + (i * img.cols + j))).val
                 else pattern (1 - (rng.bits (rng.pos + (i * img.cols + j))).val)))
      ∧ (∀ img2 : cv.Mat, img2.rows = img.rows → img2.cols = img.cols →
          ∃ (t1 t2 : cv.Mat) (after2 : VisualCryptography),
            (VisualCryptography.holding img2 rng).generateShares = .ok ((t1, t2), after2)
            ∧ after2.rng = after.rng)
      ∧ (∀ rng2 : Rng, rng2.pos = rng.pos →
          (∀ k, k < img.cols * img.rows → rng2.bits (rng.pos + k) = rng.bits (rng.pos + k)) →
          ∃ after2 : VisualCryptography,
            (VisualCryptography.holding img rng2).generateShares = .ok ((s1, s2), after2)) := by
  obtain ⟨s1, s2, hgen, h1, h2, hcells, hblocks⟩ := generateShares_full img rng
  refine ⟨s1, s2, _, hgen, ?_, rfl, hblocks, ?_, ?_⟩
  · simp only [VisualCryptography.holding]
    rw [Nat.mul_comm img.cols]
  · intro img2 hr hc
    obtain ⟨t1, t2, hgen2, _, _, _, _⟩ := generateShares_full img2 rng
    refine ⟨t1, t2, _, hgen2, ?_⟩
    simp only [VisualCryptography.holding, hr, hc]
  · intro rng2 hpos hbits
    obtain ⟨t1, t2, hgen2, g1, g2, hcells2, _⟩ := generateShares_full img rng2
    have hbit : ∀ r c, r < img.rows * 2 → c < img.cols * 2 →
        bitFor rng2 img.cols (r / 2) (c / 2) = bitFor rng img.cols (r / 2) (c / 2) := by
      intro r c hr hc
      have hk : r / 2 * img.cols + c / 2 < img.rows * img.cols :=
        index_lt_of_lt (by omega) (by omega)
      simp only [bitFor, hpos]
      rw [hbits _ (by rw [Nat.mul_comm img.cols img.rows]; exact hk)]
    have e1 : t1 = s1 := by
      apply shareShape_ext g1 h1
      intro r c hr hc
      rw [(hcells2 r c hr hc).1, (hcells r c hr hc).1, hbit r c hr hc]
    have e2 : t2 = s2 := by
      apply shareShape_ext g2 h2
      intro r c hr hc
      rw [(hcells2 r c hr hc).2, (hcells r c hr hc).2, hbit r c hr hc]
    rw [e1, e2] at hgen2
    exact ⟨_, hgen2⟩

/-- Witness of C10: the 2x2 checkerboard, bits 0, 1, 1, 0, pixel (1, 0). -/
theorem randomness_consumption_witness :
    ∃ (s1 s2 : cv.Mat) (after : VisualCryptography),
      (VisualCryptography.holding (rasterOfRows 2 [[0, 255], [255, 0]])
          (Rng.ofList [0, 1, 1, 0])).generateShares = .ok ((s1, s2), after)
      ∧ after.rng.pos = 4
      ∧ block s1 1 0 = pattern 1 ∧ block s2 1 0 = pattern 1 := by
  obtain ⟨s1, s2, after, hgen, hpos, _, hb, _, _⟩ :=
    randomness_consumption (rasterOfRows 2 [[0, 255], [255, 0]]) (Rng.ofList [0, 1, 1, 0])
  have h := hb 1 0 (by decide) (by decide)
  exact ⟨s1, s2, after, hgen, hpos, h.1, h.2⟩

/-! ## Concrete scenarios -/

/-- C11, concrete scenario (BLACK, bit 0): for the 1x1 raster whose pixel is
BLACK and a generator whose first value is 0, share1 is [[W, B], [B, W]],
share2 is [[B, W], [W, B]] and their overlay is the all-BLACK 2x2 raster. -/
theorem scenario_black_bit0 :
    (shareRun (rasterOfRows 1 [[BLACK]]) (Rng.ofList [0])).map
        (fun r => (matRows r.1, matRows r.2.1, matRows r.2.2))
      = .ok ([[WHITE, BLACK], [BLACK, WHITE]],
             [[BLACK, WHITE], [WHITE, BLACK]],
             [[BLACK, BLACK], [BLACK, BLACK]]) := rfl

/-- C12, concrete scenario (WHITE, bit 1): for the 1x1 raster whose pixel is
WHITE and a generator whose first value is 1, share1 and share2 are both
[[B, W], [W, B]] and so is their overlay. -/
theorem scenario_white_bit1 :
    (shareRun (rasterOfRows 1 [[WHITE]]) (Rng.ofList [1])).map
        (fun r => (matRows r.1, matRows r.2.1, matRows r.2.2))
      = .ok ([[BLACK, WHITE], [WHITE, BLACK]],
             [[BLACK, WHITE], [WHITE, BLACK]],
             [[BLACK, WHITE], [WHITE, BLACK]]) := rfl

/-- Black-cell counts of the two kinds of reconstructed block. -/
theorem countCells_reconstructed (p : Nat) (hp : p < 2) :
    countCells BLACK (pattern p) = 2
    ∧ countCells BLACK [[BLACK, BLACK], [BLACK, BLACK]] = 4
    ∧ pattern p ≠ [[BLACK, BLACK], [BLACK, BLACK]] :=
  ⟨(countCells_pattern p hp).2, by decide, (pattern_ne_uniform p hp).1⟩

/-- C13, round-trip visual fidelity on the checkerboard: for each of the two
2x2 checkerboards and every generator, the blocks of the 4x4 reconstruction
that are all BLACK are exactly those of the BLACK source pixels; a block that
comes from a WHITE pixel has 2 of its 4 cells BLACK, a block that comes from a
BLACK pixel has 4 of 4, so the former has strictly fewer. -/
theorem checkerboard_fidelity (img : cv.Mat) (rng : Rng)
    (himg : img = rasterOfRows 2 [[BLACK, WHITE], [WHITE, BLACK]]
      ∨ img = rasterOfRows 2 [[WHITE, BLACK], [BLACK, WHITE]]) :
    ∃ s1 s2 R : cv.Mat, shareRun img rng = .ok (s1, s2, R)
      ∧ (R.rows = 4 ∧ R.cols = 4)
      ∧ (∀ i j, i < 2 → j < 2 →
          (block R i j = [[BLACK, BLACK], [BLACK, BLACK]] ↔ img.at i j = BLACK)
          ∧ (img.at i j = WHITE → countCells BLACK (block R i j) = 2)
          ∧ (img.at i j = BLACK → countCells BLACK (block R i j) = 4))
      ∧ (∀ i j k l, i < 2 → j < 2 → k < 2 → l < 2 →
          img.at i j = WHITE → img.at k l = BLACK →
          countCells BLACK (block R i j) < countCells BLACK (block R k l)) := by
  obtain ⟨s1, s2, R, hrun, _, _, hR, hblocks⟩ := shareRun_spec img rng
  have hdims : img.rows = 2 ∧ img.cols = 2 := by
    rcases himg with rfl | rfl <;> exact ⟨rfl, rfl⟩
  have hlevel : ∀ i j, i < 2 → j < 2 → img.at i j = BLACK ∨ img.at i j = WHITE := by
    rcases himg with rfl | rfl <;> intro i j hi hj <;> interval_cases i <;>
      interval_cases j <;> decide
  have hblock : ∀ i j, i < 2 → j < 2 →
      block R i j = (if img.at i j = 255 then pattern (bitFor rng img.cols i j)
        else [[0, 0], [0, 0]]) := by
    intro i j hi hj
    exact (hblocks i j (by omega) (by omega)).2.2
  have hcell : ∀ i j, i < 2 → j < 2 →
      (block R i j = [[BLACK, BLACK], [BLACK, BLACK]] ↔ img.at i j = BLACK)
      ∧ (img.at i j = WHITE → countCells BLACK (block R i j) = 2)
      ∧ (img.at i j = BLACK → countCells BLACK (block R i j) = 4) := by
    intro i j hi hj
    have hc := countCells_reconstructed _ (bitFor_lt rng img.cols i j)
    rw [hblock i j hi hj]
    rcases hlevel i j hi hj with hb | hw
    · have hne : ¬ img.at i j = 255 := by rw [hb]; decide
      rw [if_neg hne]
      exact ⟨⟨fun _ => hb, fun _ => rfl⟩, fun h => absurd h hne, fun _ => hc.2.1⟩
    · have hne : ¬ img.at i j = BLACK := by rw [hw]; decide
      rw [if_pos hw]
      exact ⟨⟨fun h => absurd h hc.2.2, fun h => absurd h hne⟩, fun _ => hc.1,
        fun h => absurd h hne⟩
  refine ⟨s1, s2, R, hrun, ?_, hcell, ?_⟩
  · obtain ⟨r1, r2, _, _⟩ := hR
    rw [r1, r2, hdims.1, hdims.2]
    exact ⟨rfl, rfl⟩
  · intro i j k l hi hj hk hl hw hb
    rw [(hcell i j hi hj).2.1 hw, (hcell k l hk hl).2.2 hb]
    decide

/-- Witness of C13: the checkerboard with BLACK at (0, 0), bits 1, 0, 0, 1. -/
theorem checkerboard_fidelity_witness :
    ∃ s1 s2 R : cv.Mat,
      shareRun (rasterOfRows 2 [[BLACK, WHITE], [WHITE, BLACK]]) (Rng.ofList [1, 0, 0, 1])
        = .ok (s1, s2, R)
      ∧ (block R 0 0 = [[BLACK, BLACK], [BLACK, BLACK]]
          ↔ (rasterOfRows 2 [[BLACK, WHITE], [WHITE, BLACK]]).at 0 0 = BLACK)
      ∧ countCells BLACK (block R 0 1) = 2
      ∧ countCells BLACK (block R 0 1) < countCells BLACK (block R 1 1) := by
  obtain ⟨s1, s2, R, hrun, _, hcell, hlt⟩ :=
    checkerboard_fidelity (rasterOfRows 2 [[BLACK, WHITE], [WHITE, BLACK]])
      (Rng.ofList [1, 0, 0, 1]) (Or.inl rfl)
  exact ⟨s1, s2, R, hrun, (hcell 0 0 (by decide) (by decide)).1,
    (hcell 0 1 (by decide) (by decide)).2.1 (by decide),
    hlt 0 1 1 1 (by decide) (by decide) (by decide) (by decide) (by decide) (by decide)⟩

/-! ## Purity of the reconstruction -/

/-- The outcome of one call of `overlayShares` on a frame. -/
theorem overlaySharesRun_eq (f : OverlayFrame) :
    VisualCryptography.overlaySharesRun f
      = if f.share1.size ≠ f.share2.size then
          (.error "Error in overlay: Shares have different sizes", f)
        else
          match cv.bitwise_and f.share1 f.share2
              (cv.Mat.zeros f.share1.size.2 f.share1.size.1) with
          | .ok dst => (.ok dst, { f with result := dst })
          | .error e =>
            (.error ("Error in overlay: " ++ e),
              { f with result := cv.Mat.zeros f.share1.size.2 f.share1.size.1 }) := by
  by_cases h : f.share1.size ≠ f.share2.size
  · rw [if_pos h]
    simp [VisualCryptography.overlaySharesRun, VisualCryptography.overlaySharesStmts, h,
      tryCatch, tryCatchThe, MonadExceptOf.tryCatch, ExceptT.tryCatch, ExceptT.run, ExceptT.mk,
      bind, ExceptT.bind, ExceptT.bindCont, StateT.bind, StateT.run, get, getThe,
      MonadStateOf.get, liftM, monadLift, MonadLift.monadLift, ExceptT.lift, StateT.get,
      throw, throwThe, MonadExceptOf.throw, pure, ExceptT.pure, StateT.pure, Functor.map,
      StateT.map]
  · rw [if_neg h]
    simp [VisualCryptography.overlaySharesRun, VisualCryptography.overlaySharesStmts, h,
      bitwiseAndStmt,
      tryCatch, tryCatchThe, MonadExceptOf.tryCatch, ExceptT.tryCatch, ExceptT.run, ExceptT.mk,
      bind, ExceptT.bind, ExceptT.bindCont, StateT.bind, StateT.run, get, getThe,
      MonadStateOf.get, liftM, monadLift, MonadLift.monadLift, ExceptT.lift, StateT.get,
      throw, throwThe, MonadExceptOf.throw, pure, ExceptT.pure, StateT.pure, Functor.map,
      StateT.map, modify, modifyGet, MonadStateOf.modifyGet, StateT.modifyGet, set,
      MonadStateOf.set, StateT.set]
    cases cv.bitwise_and f.share1 f.share2 (cv.Mat.zeros f.share1.size.2 f.share1.size.1) <;> rfl

/-- The value of a call on a frame is the value of `overlayShares` on the two
matrices of the frame. -/
theorem overlaySharesRun_value (f : OverlayFrame) :
    (VisualCryptography.overlaySharesRun f).1
      = VisualCryptography.overlayShares f.share1 f.share2 := by
  rw [overlaySharesRun_eq]
  by_cases h : f.share1.size ≠ f.share2.size
  · rw [if_pos h]
    simp [VisualCryptography.overlayShares, rethrow, h]
    rfl
  · rw [if_neg h]
    simp only [VisualCryptography.overlayShares, h, if_false]
    cases cv.bitwise_and f.share1 f.share2 (cv.Mat.zeros f.share1.size.2 f.share1.size.1) <;> rfl

/-- A call writes nothing but the local `result`. -/
theorem overlaySharesRun_frame (f : OverlayFrame) :
    (VisualCryptography.overlaySharesRun f).2.self = f.self
    ∧ (VisualCryptography.overlaySharesRun f).2.share1 = f.share1
    ∧ (VisualCryptography.overlaySharesRun f).2.share2 = f.share2 := by
  rw [overlaySharesRun_eq]
  by_cases h : f.share1.size ≠ f.share2.size
  · rw [if_pos h]
    exact ⟨rfl, rfl, rfl⟩
  · rw [if_neg h]
    cases cv.bitwise_and f.share1 f.share2 (cv.Mat.zeros f.share1.size.2 f.share1.size.1) <;>
      exact ⟨rfl, rfl, rfl⟩

/-- C14, determinism and purity of reconstruction: run the body of
`overlayShares` statement by statement on the frame of a call (object, the two
matrices A and B, the local `result`).  Whether the call returns or throws,
the object (its generator included), A and B are after the call what they were
before; the value returned or the error thrown is the same for every other
object state and every other content of the local, so it depends on A and B
alone; and a second call on what the first call left gives the same value. -/
theorem overlay_pure (f : OverlayFrame) (vc2 : VisualCryptography) (r2 : cv.Mat) :
    ((VisualCryptography.overlaySharesRun f).2.self = f.self
      ∧ (VisualCryptography.overlaySharesRun f).2.share1 = f.share1
      ∧ (VisualCryptography.overlaySharesRun f).2.share2 = f.share2)
    ∧ (VisualCryptography.overlaySharesRun
          { self := vc2, share1 := f.share1, share2 := f.share2, result := r2 }).1
        = (VisualCryptography.overlaySharesRun f).1
    ∧ (VisualCryptography.overlaySharesRun (VisualCryptography.overlaySharesRun f).2).1
        = (VisualCryptography.overlaySharesRun f).1
    ∧ (VisualCryptography.overlaySharesRun f).1
        = VisualCryptography.overlayShares f.share1 f.share2 := by
  have hf := overlaySharesRun_frame f
  refine ⟨hf, ?_, ?_, overlaySharesRun_value f⟩
  · rw [overlaySharesRun_value, overlaySharesRun_value]
  · rw [overlaySharesRun_value, overlaySharesRun_value, hf.2.1, hf.2.2]

/-! ## The per-pixel encoding -/

theorem complementBlock_pattern (p : Nat) (hp : p < 2) :
    complementBlock (pattern p) = pattern (1 - p) := by
  interval_cases p <;> decide

/-- C15, per-pixel encoding: pattern 0 is [[W, B], [B, W]], pattern 1 is
[[B, W], [W, B]] and each is the cell-wise complement of the other.  For every
raster, every generator and every source pixel (i, j) with drawn bit b, the
block of share1 is pattern b; the block of share2 is pattern b when the pixel
is WHITE and the complement of pattern b, which is pattern (1 - b), when it is
BLACK.  Every cell of a share lies in the block of exactly one source pixel,
and the two blocks of a pixel are the same for any other raster and generator
that agree on the value of this pixel and on its bit. -/
theorem per_pixel_encoding (img : cv.Mat) (rng : Rng) (i j : Nat)
    (hi : i < img.rows) (hj : j < img.cols) :
    (pattern 0 = [[WHITE, BLACK], [BLACK, WHITE]] ∧ pattern 1 = [[BLACK, WHITE], [WHITE, BLACK]]
      ∧ complementBlock (pattern 0) = pattern 1 ∧ complementBlock (pattern 1) = pattern 0)
    ∧ (∃ (s1 s2 : cv.Mat) (after : VisualCryptography),
        (VisualCryptography.holding img rng).generateShares = .ok ((s1, s2), after)
        ∧ block s1 i j = pattern (rng.bits (rng.pos + (i * img.cols + j))).val
        ∧ (img.at i j = WHITE →
            block s2 i j = pattern (rng.bits (rng.pos + (i * img.cols + j))).val)
        ∧ (img.at i j = BLACK →
            block s2 i j
                = complementBlock (pattern (rng.bits (rng.pos + (i * img.cols + j))).val)
            ∧ block s2 i j = pattern (1 - (rng.bits (rng.pos + (i * img.cols + j))).val))
        ∧ (∀ r c, r < s1.rows → c < s1.cols →
            ∃! q : Nat × Nat, (q.1 < img.rows ∧ q.2 < img.cols)
              ∧ (r = 2 * q.1 ∨ r = 2 * q.1 + 1) ∧ (c = 2 * q.2 ∨ c = 2 * q.2 + 1))
        ∧ (s2.rows = s1.rows ∧ s2.cols = s1.cols))
    ∧ (∀ (img2 : cv.Mat) (rng2 : Rng), i < img2.rows → j < img2.cols →
        img2.at i j = img.at i j →
        rng2.bits (rng2.pos + (i * img2.cols + j)) = rng.bits (rng.pos + (i * img.cols + j)) →
        shareBlockA img2 rng2 i j = shareBlockA img rng i j
        ∧ shareBlockB img2 rng2 i j = shareBlockB img rng i j) := by
  refine ⟨⟨by decide, by decide, by decide, by decide⟩, ?_, ?_⟩
  · obtain ⟨s1, s2, hgen, h1, h2, hblocks⟩ := generateShares_spec img rng
    obtain ⟨b1, b2⟩ := hblocks i j hi hj
    have hlt := bitFor_lt rng img.cols i j
    refine ⟨s1, s2, _, hgen, b1, ?_, ?_, ?_, ?_⟩
    · intro hw
      rw [b2, if_pos hw]
      rfl
    · intro hb
      have hne : ¬ img.at i j = 255 := by rw [hb]; decide
      rw [b2, if_neg hne]
      exact ⟨(complementBlock_pattern _ hlt).symm, rfl⟩
    · intro r c hr hc
      rw [h1.1] at hr
      rw [h1.2.1] at hc
      refine ⟨(r / 2, c / 2), ⟨⟨by simp only; omega, by simp only; omega⟩,
        by simp only; omega, by simp only; omega⟩, ?_⟩
      rintro ⟨a, b⟩ ⟨_, ha, hb⟩
      simp only at ha hb
      have e1 : a = r / 2 := by omega
      have e2 : b = c / 2 := by omega
      rw [e1, e2]
    · exact ⟨by rw [h2.1, h1.1], by rw [h2.2.1, h1.2.1]⟩
  · intro img2 rng2 hi2 hj2 hpix hbit
    have hb : bitFor rng2 img2.cols i j = bitFor rng img.cols i j := by
      simp only [bitFor, hbit]
    rw [shareBlockA_eq img2 rng2 i j hi2 hj2, shareBlockA_eq img rng i j hi hj,
      shareBlockB_eq img2 rng2 i j hi2 hj2, shareBlockB_eq img rng i j hi hj, hb, hpix]
    exact ⟨rfl, rfl⟩

/-- Witness of C15: the 1x2 raster BLACK, WHITE, bits 1, 0, pixel (0, 0). -/
theorem per_pixel_encoding_witness :
    ∃ (s1 s2 : cv.Mat) (after : VisualCryptography),
      (VisualCryptography.holding (rasterOfRows 2 [[BLACK, WHITE]])
          (Rng.ofList [1, 0])).generateShares = .ok ((s1, s2), after)
      ∧ block s1 0 0 = pattern 1
      ∧ block s2 0 0 = complementBlock (pattern 1)
      ∧ block s2 0 0 = pattern 0 := by
  obtain ⟨_, ⟨s1, s2, after, hgen, b1, _, hblack, _, _⟩, _⟩ :=
    per_pixel_encoding (rasterOfRows 2 [[BLACK, WHITE]]) (Rng.ofList [1, 0]) 0 0
      (by decide) (by decide)
  have h := hblack (by decide)
  exact ⟨s1, s2, after, hgen, b1, h.1, h.2⟩

/-! ## Binarization in the constructor -/

/-- Cells of a thresholded matrix. -/
theorem at_threshold (src : cv.Mat) (thresh maxval i j : Nat) :
    (cv.threshold src thresh maxval).at i j = if src.at i j > thresh then maxval else 0 := by
  simp only [cv.Mat.at, cv.threshold, cv.Mat.step, List.getD_eq_getElem?_getD,
    List.getElem?_map]
  cases h : src.data[i * (src.cols * src.channels) + j]? <;> simp

/-- C16, binarization before the core: for every non-empty single-channel
input of width at most 400 and height at most 400 the constructor succeeds
and stores a single-channel raster of the same width and height whose pixel
is WHITE where the input pixel is greater than 128 and BLACK elsewhere (so 128
itself becomes BLACK); every pixel that `generateShares` then reads is BLACK
or WHITE. -/
theorem binarization (resize cvtColor : cv.Mat → Except String cv.Mat) (img : cv.Mat) (rng : Rng)
    (hpos : 0 < img.cols ∧ 0 < img.rows) (hw : img.cols ≤ 400) (hh : img.rows ≤ 400)
    (hc : img.channels = 1) :
    ∃ vc : VisualCryptography,
      VisualCryptography.new resize cvtColor img rng = .ok vc
      ∧ (vc.original.cols = img.cols ∧ vc.original.rows = img.rows ∧ vc.original.channels = 1)
      ∧ (vc.width = img.cols ∧ vc.height = img.rows)
      ∧ vc.original.data.length = img.data.length
      ∧ (∀ i j, vc.original.at i j = if img.at i j > 128 then WHITE else BLACK)
      ∧ (∀ i j, img.at i j = 128 → vc.original.at i j = BLACK)
      ∧ (∀ i j, vc.original.at i j = BLACK ∨ vc.original.at i j = WHITE) := by
  have hc3 : img.channels ≠ 3 := by rw [hc]; decide
  refine ⟨_, new_of_small resize cvtColor img rng hpos hw hh hc3,
    ⟨rfl, rfl, hc⟩, ⟨rfl, rfl⟩, ?_, ?_, ?_, ?_⟩
  · simp [VisualCryptography.holding, cv.threshold]
  · intro i j
    exact at_threshold img 128 255 i j
  · intro i j h
    have := at_threshold img 128 255 i j
    rw [h] at this
    simpa [VisualCryptography.holding] using this
  · intro i j
    have := at_threshold img 128 255 i j
    simp only [VisualCryptography.holding]
    rw [this]
    split_ifs
    · exact Or.inr rfl
    · exact Or.inl rfl

/-- Witness of C16: a 2x2 grey input with the values 100, 129, 128, 255. -/
theorem binarization_witness :
    ∃ vc : VisualCryptography,
      VisualCryptography.new (fun m => .ok m) (fun m => .ok m)
          (rasterOfRows 2 [[100, 129], [128, 255]]) (Rng.ofList []) = .ok vc
      ∧ matRows vc.original = [[BLACK, WHITE], [BLACK, WHITE]] := by
  obtain ⟨vc, hnew, _, _, _, _, _, _⟩ :=
    binarization (fun m => .ok m) (fun m => .ok m) (rasterOfRows 2 [[100, 129], [128, 255]])
      (Rng.ofList []) (by decide) (by decide) (by decide) (by decide)
  refine ⟨vc, hnew, ?_⟩
  have h2 : VisualCryptography.new (fun m => .ok m) (fun m => .ok m)
      (rasterOfRows 2 [[100, 129], [128, 255]]) (Rng.ofList [])
      = .ok (VisualCryptography.holding
          (cv.threshold (rasterOfRows 2 [[100, 129], [128, 255]]) 128 255) (Rng.ofList [])) := rfl
  rw [h2] at hnew
  injection hnew with hnew
  rw [← hnew]
  rfl

/-! ## Recovering the secret -/

theorem decodeCell_eq (R : cv.Mat) (i j : Nat) :
    decodeCell R i j = if block R i j = [[0, 0], [0, 0]] then BLACK else WHITE := by
  simp only [decodeCell, block, List.cons.injEq, and_true, and_assoc]

/-- Pixel (k / W, k % W) of a well-formed single-channel raster is element `k`
of its buffer. -/
theorem at_div_mod (img : cv.Mat) (hc : img.channels = 1) (k : Nat)
    (hk : k < img.data.length) :
    img.at (k / img.cols) (k % img.cols) = img.data[k] := by
  simp only [cv.Mat.at, cv.Mat.step, hc, Nat.mul_one, Nat.div_add_mod' k img.cols,
    List.getD_eq_getElem?_getD, List.getElem?_eq_getElem hk, Option.getD_some]

/-- C17, the secret is recoverable: with `decode` mapping a block of four
BLACK cells to BLACK and every other block to WHITE, for every well-formed
two-level raster and every generator, decoding the overlay of the two
generated shares gives back the raster. -/
theorem secret_recoverable (img : cv.Mat) (rng : Rng) (h2l : TwoLevelRaster img) :
    ∃ s1 s2 R : cv.Mat, shareRun img rng = .ok (s1, s2, R) ∧ decode R = img := by
  obtain ⟨hc, hlen, hval⟩ := h2l
  obtain ⟨s1, s2, R, hrun, _, _, hR, hblocks⟩ := shareRun_spec img rng
  refine ⟨s1, s2, R, hrun, ?_⟩
  obtain ⟨r1, r2, _, _⟩ := hR
  have hrows : R.rows / 2 = img.rows := by rw [r1]; omega
  have hcols : R.cols / 2 = img.cols := by rw [r2]; omega
  have hdata : (List.range (img.rows * img.cols)).map
      (fun k => decodeCell R (k / img.cols) (k % img.cols)) = img.data := by
    apply List.ext_getElem (by simp [hlen])
    intro k hk1 hk2
    have hk : k < img.rows * img.cols := by rw [← hlen]; exact hk2
    have hWpos : 0 < img.cols := by
      rcases Nat.eq_zero_or_pos img.cols with h0 | h0
      · rw [h0] at hk; simp at hk
      · exact h0
    have hj : k % img.cols < img.cols := Nat.mod_lt _ hWpos
    have hi : k / img.cols < img.rows := by
      rw [Nat.div_lt_iff_lt_mul hWpos]
      exact hk
    have hat := at_div_mod img hc k hk2
    have hb := (hblocks _ _ hi hj).2.2
    have hlt := bitFor_lt rng img.cols (k / img.cols) (k % img.cols)
    rw [List.getElem_map, List.getElem_range, decodeCell_eq, hb, hat]
    rcases hval _ (List.getElem_mem hk2) with h0 | h255
    · rw [h0]
      simp
    · rw [h255, if_pos rfl, if_neg (pattern_ne_uniform _ hlt).1]
  cases img
  simp only [decode, cv.Mat.mk.injEq]
  simp only at hc hrows hcols hdata
  rw [hrows, hcols]
  exact ⟨rfl, rfl, hc.symm, hdata⟩

/-- Witness of C17: the 2x2 checkerboard, bits 0, 1, 1, 0. -/
theorem secret_recoverable_witness :
    TwoLevelRaster (rasterOfRows 2 [[BLACK, WHITE], [WHITE, BLACK]])
    ∧ ∃ s1 s2 R : cv.Mat,
        shareRun (rasterOfRows 2 [[BLACK, WHITE], [WHITE, BLACK]]) (Rng.ofList [0, 1, 1, 0])
          = .ok (s1, s2, R)
        ∧ decode R = rasterOfRows 2 [[BLACK, WHITE], [WHITE, BLACK]] :=
  ⟨⟨rfl, rfl, by decide⟩,
   secret_recoverable (rasterOfRows 2 [[BLACK, WHITE], [WHITE, BLACK]]) (Rng.ofList [0, 1, 1, 0])
    ⟨rfl, rfl, by decide⟩⟩

/-! ## What the shares depend on -/

/-- C18, share1 is independent of the secret: for every two rasters of the
same width and height, with any pixel values, and the same generator, the
first share that `generateShares` returns is the same matrix. -/
theorem share1_independent (img1 img2 : cv.Mat) (rng : Rng)
    (hr : img1.rows = img2.rows) (hc : img1.cols = img2.cols) :
    ∃ (s1 s2 t2 : cv.Mat) (after1 after2 : VisualCryptography),
      (VisualCryptography.holding img1 rng).generateShares = .ok ((s1, s2), after1)
      ∧ (VisualCryptography.holding img2 rng).generateShares = .ok ((s1, t2), after2) := by
  obtain ⟨s1, s2, hgen1, h1, _, hcells1, _⟩ := generateShares_full img1 rng
  obtain ⟨t1, t2, hgen2, g1, _, hcells2, _⟩ := generateShares_full img2 rng
  have e : t1 = s1 := by
    rw [← hr, ← hc] at g1
    apply shareShape_ext g1 h1
    intro r c hr1 hc1
    rw [(hcells2 r c (by rw [← hr]; exact hr1) (by rw [← hc]; exact hc1)).1,
      (hcells1 r c hr1 hc1).1, hc]
  rw [e] at hgen2
  exact ⟨s1, s2, t2, _, _, hgen1, hgen2⟩

/-- Witness of C18: the 1x2 rasters BLACK, WHITE and WHITE, 100. -/
theorem share1_independent_witness :
    ∃ (s1 s2 t2 : cv.Mat) (after1 after2 : VisualCryptography),
      (VisualCryptography.holding (rasterOfRows 2 [[BLACK, WHITE]])
          (Rng.ofList [1, 0])).generateShares = .ok ((s1, s2), after1)
      ∧ (VisualCryptography.holding (rasterOfRows 2 [[WHITE, 100]])
          (Rng.ofList [1, 0])).generateShares = .ok ((s1, t2), after2) :=
  share1_independent (rasterOfRows 2 [[BLACK, WHITE]]) (rasterOfRows 2 [[WHITE, 100]])
    (Rng.ofList [1, 0]) (by decide) (by decide)

/-- Cells of the raster in which every value other than 255 is replaced by 0. -/
theorem at_blackenNonWhite (img : cv.Mat) (i j : Nat) :
    (blackenNonWhite img).at i j = if img.at i j = 255 then 255 else 0 := by
  simp only [cv.Mat.at, blackenNonWhite, cv.Mat.step, List.getD_eq_getElem?_getD,
    List.getElem?_map]
  cases h : img.data[i * (img.cols * img.channels) + j]? <;> simp

theorem cell2_blackenNonWhite (img : cv.Mat) (i j p r c : Nat) :
    cell2 ((blackenNonWhite img).at i j) p r c = cell2 (img.at i j) p r c := by
  rw [at_blackenNonWhite]
  unfold cell2
  by_cases h : img.at i j = 255
  · rw [if_pos h, if_pos rfl, if_pos h]
  · rw [if_neg h, if_neg (by decide), if_neg h]

/-- C19, every value other than 255 is treated as BLACK: for every raster and
every generator `generateShares` returns a share pair, and it is the pair
returned for the raster in which every pixel different from 255 is replaced by
0; the generator is left in the same state in both cases. -/
theorem non_white_is_black (img : cv.Mat) (rng : Rng) :
    (∀ i j, (blackenNonWhite img).at i j = if img.at i j = 255 then 255 else 0)
    ∧ ∃ (s1 s2 : cv.Mat) (after after2 : VisualCryptography),
        (VisualCryptography.holding img rng).generateShares = .ok ((s1, s2), after)
        ∧ (VisualCryptography.holding (blackenNonWhite img) rng).generateShares
            = .ok ((s1, s2), after2)
        ∧ after2.rng = after.rng := by
  refine ⟨at_blackenNonWhite img, ?_⟩
  obtain ⟨s1, s2, hgen1, h1, h2, hcells1, _⟩ := generateShares_full img rng
  obtain ⟨t1, t2, hgen2, g1, g2, hcells2, _⟩ := generateShares_full (blackenNonWhite img) rng
  have hrows : (blackenNonWhite img).rows = img.rows := rfl
  have hcols : (blackenNonWhite img).cols = img.cols := rfl
  rw [hrows, hcols] at g1 g2 hcells2
  have e1 : t1 = s1 := by
    apply shareShape_ext g1 h1
    intro r c hr hc
    rw [(hcells2 r c hr hc).1, (hcells1 r c hr hc).1]
  have e2 : t2 = s2 := by
    apply shareShape_ext g2 h2
    intro r c hr hc
    rw [(hcells2 r c hr hc).2, (hcells1 r c hr hc).2, cell2_blackenNonWhite]
  rw [e1, e2] at hgen2
  exact ⟨s1, s2, _, _, hgen1, hgen2, rfl⟩
